import Mathlib

/-!
# Verification of the student record store (`src/studentrecord.py`)

Shallow embedding of the non-GUI core of the application: the `Student`
data model, the ordered container (the singly linked list, modelled by the
Lean list of its node contents in traversal order), the roll-number hash
index (modelled by the Python dict's association list from normalized roll
to the node's position in the container), the middle-pivot quicksort, and
the JSON persistence layer. Tkinter widgets, dialog boxes and the event
loop are out of scope; the store operations are modelled as pure state
transformers taking the raw text-field contents as arguments.

Python strings are modelled as `List Char`; Python floats are modelled as
rationals (`ℚ`), which is exact for every comparison and range check the
program performs on finite values; the builtin `float(...)` text parser is
an explicit parameter `pyfloat` of the operations that read the GPA field.
-/

/-- Python strings, modelled as their character sequences. -/
abbrev PyStr := List Char

/-- `str.strip()`: drop leading and trailing whitespace.
Python strips Unicode whitespace; `Char.isWhitespace` covers the ASCII
whitespace actually typed into the form fields. -/
def pyStrip (s : PyStr) : PyStr :=
  ((s.dropWhile Char.isWhitespace).reverse.dropWhile Char.isWhitespace).reverse

/-- `str.upper()` (ASCII range, which is what `Char.toUpper` implements). -/
def pyUpper (s : PyStr) : PyStr := s.map Char.toUpper

/-- `str.lower()` (ASCII range). -/
def pyLower (s : PyStr) : PyStr := s.map Char.toLower

/-- `normalize_roll` (src lines 181–183): strip then upper-case. -/
def normalize_roll (s : PyStr) : PyStr := pyUpper (pyStrip s)

/-- `Student` (src lines 26–31): roll, name, GPA. The constructor's
`str(...)`/`float(...)` coercions are identities at these types. -/
structure Student where
  roll : PyStr
  name : PyStr
  gpa : ℚ
deriving DecidableEq, Repr

/-- JSON values as produced/consumed by `json.dump`/`json.load` for this
program's files: strings, numbers, arrays, and objects. -/
inductive JVal where
  | str (s : PyStr)
  | num (q : ℚ)
  | arr (elems : List JVal)
  | obj (fields : List (PyStr × JVal))

/-- `Student.to_dict` (src lines 33–34). -/
def Student.to_dict (s : Student) : JVal :=
  .obj [("roll".data, .str s.roll), ("name".data, .str s.name), ("gpa".data, .num s.gpa)]

/-- Dictionary lookup `d[k]`; `none` models the `KeyError`. -/
def jLookup (fields : List (PyStr × JVal)) (k : PyStr) : Option JVal :=
  (fields.find? (fun e => e.1 == k)).map (·.2)

/-- A JSON value read as a Python `str` (the only shape the program writes
for the roll/name fields). -/
def jStr : JVal → Option PyStr
  | .str s => some s
  | _ => none

/-- A JSON value read as a number acceptable to `float(...)` (the only
shape the program writes for the gpa field). -/
def jNum : JVal → Option ℚ
  | .num q => some q
  | _ => none

/-- `Student.from_dict` (src lines 36–38): `Student(d["roll"], d["name"],
d["gpa"])`. `none` models the exception on a missing key or a field shape
the constructor's coercions are not modelled for. -/
def Student.from_dict : JVal → Option Student
  | .obj fields => do
      let r ← (jLookup fields "roll".data).bind jStr
      let n ← (jLookup fields "name".data).bind jStr
      let g ← (jLookup fields "gpa".data).bind jNum
      pure ⟨r, n, g⟩
  | _ => none

/-- `save_students_to_file` (src lines 162–174): the JSON document the
atomic write leaves in the file. -/
def save_students_to_file (students_list : List Student) : JVal :=
  .arr (students_list.map Student.to_dict)

/-- `load_students_from_file` (src lines 145–159). The argument is the
file's parsed contents, `none` when the file does not exist. Any exception
while converting (non-array document, bad row) is caught and yields `[]`. -/
def load_students_from_file (file : Option JVal) : List Student :=
  match file with
  | none => []
  | some (.arr data) =>
      match data.mapM Student.from_dict with
      | some students => students
      | none => []
  | some _ => []

/-!
## Quicksort (src lines 112–138)

The in-place quicksort on a Python list is embedded with the list as
explicit state. Indices are integers (Python indexing accepts negative
values); an out-of-range access — Python's `IndexError` — is `none`, and
each loop carries fuel, so running out of fuel is also `none`. The
termination theorem below shows the fuel supplied by `quicksort_students`
is never exhausted and no access is out of range.
-/

/-- Python list read `a[i]`, including negative-index semantics. -/
def pyGet {σ : Type} (a : List σ) (i : Int) : Option σ :=
  if 0 ≤ i then a.get? i.toNat
  else if -(a.length : Int) ≤ i then a.get? (a.length - (-i).toNat)
  else none

/-- Python list write `a[i] = x`, including negative-index semantics. -/
def pySet {σ : Type} (a : List σ) (i : Int) (x : σ) : Option (List σ) :=
  if 0 ≤ i then
    if i < (a.length : Int) then some (a.set i.toNat x) else none
  else if -(a.length : Int) ≤ i then some (a.set (a.length - (-i).toNat) x)
  else none

section Quicksort

variable {σ : Type} {α : Type} [LinearOrder α]

/-- Inner loop `while key(a[i]) < pivot: i += 1` (src lines 122–123). -/
def scanUp (key : σ → α) (a : List σ) (pivot : α) : Int → Nat → Option Int
  | _, 0 => none
  | i, fuel + 1 =>
    match pyGet a i with
    | none => none
    | some x => if key x < pivot then scanUp key a pivot (i + 1) fuel else some i

/-- Inner loop `while key(a[j]) > pivot: j -= 1` (src lines 124–125). -/
def scanDown (key : σ → α) (a : List σ) (pivot : α) : Int → Nat → Option Int
  | _, 0 => none
  | j, fuel + 1 =>
    match pyGet a j with
    | none => none
    | some x => if key x > pivot then scanDown key a pivot (j - 1) fuel else some j

/-- Outer partition loop `while i <= j: ...` (src lines 121–129), including
the swap `a[i], a[j] = a[j], a[i]` and the pointer steps. -/
def partLoop (key : σ → α) (a : List σ) (pivot : α) (i j : Int) :
    Nat → Option (List σ × Int × Int)
  | 0 => none
  | fuel + 1 =>
    if i ≤ j then
      match scanUp key a pivot i (2 * a.length + 2) with
      | none => none
      | some i1 =>
        match scanDown key a pivot j (2 * a.length + 2) with
        | none => none
        | some j1 =>
          if i1 ≤ j1 then
            match pyGet a j1, pyGet a i1 with
            | some xj, some xi =>
              match pySet a i1 xj with
              | none => none
              | some a1 =>
                match pySet a1 j1 xi with
                | none => none
                | some a2 => partLoop key a2 pivot (i1 + 1) (j1 - 1) fuel
            | _, _ => none
          else partLoop key a pivot i1 j1 fuel
    else some (a, i, j)

/-- `_quicksort(a, lo, hi)` (src lines 116–133): middle-element pivot
(`(lo + hi) // 2` is Python floor division, `Int.fdiv`), partition, then
recursion on `(lo, j)` and `(i, hi)`. -/
def qsRec (key : σ → α) (a : List σ) (lo hi : Int) : Nat → Option (List σ)
  | 0 => none
  | fuel + 1 =>
    if lo ≥ hi then some a
    else
      match pyGet a ((lo + hi).fdiv 2) with
      | none => none
      | some pv =>
        match partLoop key a (key pv) lo hi ((hi - lo).toNat + 2) with
        | none => none
        | some (a1, i, j) =>
          match (if lo < j then qsRec key a1 lo j fuel else some a1) with
          | none => none
          | some a2 => if i < hi then qsRec key a2 i hi fuel else some a2

/-- `quicksort_students(arr, key)` (src lines 112–138). -/
def quicksort_students (key : σ → α) (arr : List σ) : Option (List σ) :=
  if arr.length ≤ 1 then some arr
  else qsRec key arr 0 ((arr.length : Int) - 1) (arr.length + 1)

end Quicksort

/-!
## The hash index and the store state

`self.hash_map` is a Python dict from normalized roll to a `Node` of the
linked list. A node is identified by its position in the container's
traversal order, and the dict by its association list in insertion order.
-/

/-- The hash index: normalized roll ↦ node position. -/
abbrev PyDict := List (PyStr × Nat)

/-- `k in d`. -/
def dictContains (m : PyDict) (k : PyStr) : Bool := m.any (fun e => e.1 == k)

/-- `d.get(k)` / `d[k]`. -/
def dictGet (m : PyDict) (k : PyStr) : Option Nat :=
  (m.find? (fun e => e.1 == k)).map (·.2)

/-- `d[k] = v`: overwrite in place if present, else append. -/
def dictSet (m : PyDict) (k : PyStr) (v : Nat) : PyDict :=
  if dictContains m k then m.map (fun e => if e.1 == k then (k, v) else e)
  else m ++ [(k, v)]

/-- `d.pop(k, None)`: remove the entry with key `k` if present. -/
def dictPop (m : PyDict) (k : PyStr) : PyDict :=
  m.eraseP (fun e => e.1 == k)

/-- `LinkedList.remove_by_roll` (src lines 82–97): remove the first node
whose stored roll equals `roll`; also report whether a removal happened. -/
def remove_by_roll : List Student → PyStr → List Student × Bool
  | [], _ => ([], false)
  | s :: rest, roll =>
    if s.roll = roll then (rest, true)
    else
      let p := remove_by_roll rest roll
      (s :: p.1, p.2)

/-- The store's mutable state: the linked list (node contents in traversal
order) and the hash map (src lines 194–195). -/
structure StoreState where
  linked_list : List Student
  hash_map : PyDict
deriving DecidableEq, Repr

/-- `rebuild_hash_map` (src lines 209–215): walk the container, keying each
node by its record's normalized roll (later nodes overwrite earlier keys). -/
def rebuild_hash_map (l : List Student) : PyDict :=
  l.enum.foldl (fun m p => dictSet m (normalize_roll p.2.roll) p.1) []

/-- `persist_and_refresh` (src lines 464–469): save the container (a pure
no-op on the in-memory state), then rebuild the hash map. -/
def persist_and_refresh (st : StoreState) : StoreState :=
  ⟨st.linked_list, rebuild_hash_map st.linked_list⟩

/-- `load_data` (src lines 204–207): seed the container from the file and
rebuild the hash map. -/
def load_data (file : Option JVal) : StoreState :=
  let students := load_students_from_file file
  ⟨students, rebuild_hash_map students⟩

/-- Outcome reported to the caller through the message boxes. -/
inductive OpResult where
  | ok
  | invalidInput
  | duplicateRoll
  | notFound
  | internalError
deriving DecidableEq, Repr

/-- `validate_inputs` (src lines 294–321) over the three raw text fields.
`pyfloat` is the builtin `float(...)` parser for the GPA text, restricted to
parsers that only produce finite values: this restriction loses the
non-finite results of `float(...)` — `validate_inputs_float` below models
the same source lines over the full float value set, where `float("nan")`
reaches the range guard and passes it. -/
def validate_inputs (pyfloat : PyStr → Option ℚ) (require_roll : Bool)
    (roll_raw name_raw gpa_raw : PyStr) : Option (PyStr × PyStr × ℚ) :=
  let name := pyStrip name_raw
  let gpa_str := pyStrip gpa_raw
  let roll := normalize_roll roll_raw
  if require_roll && roll.isEmpty then none
  else if name.isEmpty then none
  else if gpa_str.isEmpty then none
  else
    match pyfloat gpa_str with
    | none => none
    | some gpa => if gpa < 0 || gpa > 4 then none else some (roll, name, gpa)

/-- The values `float(...)` can produce: a finite value (modelled as a
rational) or one of the non-finite values `nan`, `inf`, `-inf`, which
`float("nan")`, `float("inf")`, `float("-inf")` parse to. -/
inductive PyFloat where
  | num (q : ℚ)
  | nan
  | inf
  | ninf
deriving DecidableEq, Repr

/-- IEEE-754 `<` on Python floats: every comparison against `nan` is false,
`-inf` lies below and `inf` above every other value. -/
def PyFloat.lt : PyFloat → PyFloat → Bool
  | .num a, .num b => a < b
  | .nan, _ => false
  | _, .nan => false
  | .ninf, .ninf => false
  | .ninf, _ => true
  | _, .ninf => false
  | .inf, _ => false
  | .num _, .inf => true

/-- `validate_inputs` (src lines 294–321) with the GPA carried as a Python
float value, so the non-finite results of `float(...)` reach the range guard
`gpa < 0 or gpa > 4.0` (src line 314) under IEEE comparison semantics:
`inf` and `-inf` are rejected by the guard, but for `nan` both comparisons
are false, so the guard accepts it. -/
def validate_inputs_float (pyfloat : PyStr → Option PyFloat) (require_roll : Bool)
    (roll_raw name_raw gpa_raw : PyStr) : Option (PyStr × PyStr × PyFloat) :=
  let name := pyStrip name_raw
  let gpa_str := pyStrip gpa_raw
  let roll := normalize_roll roll_raw
  if require_roll && roll.isEmpty then none
  else if name.isEmpty then none
  else if gpa_str.isEmpty then none
  else
    match pyfloat gpa_str with
    | none => none
    | some gpa =>
      if PyFloat.lt gpa (.num 0) || PyFloat.lt (.num 4) gpa then none
      else some (roll, name, gpa)

/-- A `float(...)` fragment for the divergence input: `"nan"` parses to
`nan`, as `float("nan")` does. -/
def nan_pyfloat : PyStr → Option PyFloat := fun s =>
  if s = "nan".data then some .nan
  else if s = "3".data then some (.num (mkRat 3 1))
  else none

/-- `add_student` (src lines 323–336). -/
def add_student (pyfloat : PyStr → Option ℚ) (st : StoreState)
    (roll_raw name_raw gpa_raw : PyStr) : StoreState × OpResult :=
  match validate_inputs pyfloat true roll_raw name_raw gpa_raw with
  | none => (st, .invalidInput)
  | some (roll, name, gpa) =>
    if dictContains st.hash_map roll then (st, .duplicateRoll)
    else
      let student : Student := ⟨roll, name, gpa⟩
      let ll := st.linked_list ++ [student]
      let hm := dictSet st.hash_map roll st.linked_list.length
      (persist_and_refresh ⟨ll, hm⟩, .ok)

/-- `update_student` (src lines 338–380). `sel_roll` is the roll shown in
the selected table row (the record's roll value). -/
def update_student (pyfloat : PyStr → Option ℚ) (st : StoreState)
    (sel_roll roll_raw name_raw gpa_raw : PyStr) : StoreState × OpResult :=
  let original_roll := normalize_roll sel_roll
  match validate_inputs pyfloat true roll_raw name_raw gpa_raw with
  | none => (st, .invalidInput)
  | some (new_roll, name, gpa) =>
    if new_roll ≠ original_roll ∧ dictContains st.hash_map new_roll then
      (st, .duplicateRoll)
    else
      match dictGet st.hash_map original_roll with
      | none => (st, .notFound)
      | some idx =>
        let ll := st.linked_list.set idx ⟨new_roll, name, gpa⟩
        let hm :=
          if new_roll ≠ original_roll then
            dictSet (dictPop st.hash_map original_roll) new_roll idx
          else st.hash_map
        (persist_and_refresh ⟨ll, hm⟩, .ok)

/-- `delete_student` (src lines 382–401), with the confirmation dialog
answered yes. The node's current roll is read through the hash-map handle
before the removal scan. -/
def delete_student (st : StoreState) (roll_raw : PyStr) : StoreState × OpResult :=
  let stripped := pyStrip roll_raw
  if stripped.isEmpty then (st, .invalidInput)
  else
    let roll := normalize_roll stripped
    match dictGet st.hash_map roll with
    | none => (st, .notFound)
    | some idx =>
      let node_roll := ((st.linked_list.get? idx).getD ⟨[], [], 0⟩).roll
      let rem := remove_by_roll st.linked_list node_roll
      let hm := dictPop st.hash_map roll
      if rem.2 then (persist_and_refresh ⟨rem.1, hm⟩, .ok)
      else (⟨st.linked_list, hm⟩, .internalError)

/-- `search_student` (src lines 403–424): the record whose fields get
filled into the form, `none` when nothing is found. -/
def search_student (st : StoreState) (roll_raw : PyStr) : Option Student :=
  let stripped := pyStrip roll_raw
  if stripped.isEmpty then none
  else (dictGet st.hash_map (normalize_roll stripped)).bind (st.linked_list.get? ·)

/-- The three sort-key radio buttons (src lines 258–261). -/
inductive SortKey where
  | roll
  | name
  | gpa
deriving DecidableEq, Repr

/-- `sort_and_refresh` (src lines 471–494): snapshot, quicksort by the
selected key, reverse for GPA, rebuild the container and hash map. -/
def sort_and_refresh (st : StoreState) (key_name : SortKey) : Option StoreState :=
  let students := st.linked_list
  let sorted :=
    match key_name with
    | .roll => quicksort_students (fun s : Student => normalize_roll s.roll) students
    | .name => quicksort_students (fun s : Student => pyLower s.name) students
    | .gpa => quicksort_students (fun s : Student => s.gpa) students
  match sorted with
  | none => none
  | some l0 =>
    let l1 := if key_name = SortKey.gpa then l0.reverse else l0
    some ⟨l1, rebuild_hash_map l1⟩

/-!
## Verification of the quicksort embedding
-/

section QuicksortProofs

variable {σ : Type} {α : Type} [LinearOrder α]

theorem pyGet_eq_getElem (a : List σ) (i : Int) (h0 : 0 ≤ i) (hl : i.toNat < a.length) :
    pyGet a i = some a[i.toNat] := by
  simp [pyGet, h0, List.get?_eq_getElem?, List.getElem?_eq_getElem hl]

theorem pySet_eq_set (a : List σ) (i : Int) (x : σ) (h0 : 0 ≤ i) (hl : i.toNat < a.length) :
    pySet a i x = some (a.set i.toNat x) := by
  have : i < (a.length : Int) := by omega
  simp [pySet, h0, this]

theorem list_set_self (l : List σ) (n : Nat) (h : n < l.length) : l.set n l[n] = l := by
  apply List.ext_getElem?
  intro m
  by_cases hm : n = m
  · subst hm; simp [List.getElem?_set_self', List.getElem?_eq_getElem h]
  · simp [List.getElem?_set_ne hm]

theorem cons_set_perm (t : List σ) (k : Nat) (hk : k < t.length) (x : σ) :
    (t[k] :: t.set k x).Perm (x :: t)  := by
  have hset : t.set k x = t.take k ++ x :: t.drop (k + 1) := by
    rw [List.set_eq_take_append_cons_drop]; simp [hk]
  have ht : t = t.take k ++ t[k] :: t.drop (k + 1) := by
    conv_lhs => rw [← List.take_append_drop k t, List.drop_eq_getElem_cons hk]
  rw [hset]
  conv_rhs => rw [ht]
  exact ((List.Perm.cons _ List.perm_middle).trans
    (List.Perm.swap _ _ _)).trans (List.Perm.cons _ List.perm_middle.symm)

theorem set_set_perm (a : List σ) :
    ∀ (i j : Nat) (hi : i < a.length) (hj : j < a.length),
      ((a.set i a[j]).set j a[i]).Perm a := by
  induction a with
  | nil => intro i j hi hj; simp at hi
  | cons h t ih =>
    intro i j hi hj
    match i, j with
    | 0, 0 => simp
    | 0, j + 1 =>
      have hj' : j < t.length := by simpa using hj
      simpa using cons_set_perm t j hj' h
    | i + 1, 0 =>
      have hi' : i < t.length := by simpa using hi
      simpa using cons_set_perm t i hi' h
    | i + 1, j + 1 =>
      have hi' : i < t.length := by simpa using hi
      have hj' : j < t.length := by simpa using hj
      simpa using List.Perm.cons h (ih i j hi' hj')

/-- Two permuted lists that agree outside `[lo, hi]` have permuted slices
on `[lo, hi]`. -/
theorem slice_perm_of_agree_outside {b u : List σ}
    (hperm : u.Perm b) (lo hi : Nat) (hlohi : lo ≤ hi + 1)
    (hout : ∀ m : Nat, m < lo ∨ hi < m → u.get? m = b.get? m) :
    ((u.drop lo).take (hi + 1 - lo)).Perm ((b.drop lo).take (hi + 1 - lo)) := by
  have htake : u.take lo = b.take lo := by
    apply List.ext_getElem?
    intro m
    rw [List.getElem?_take, List.getElem?_take]
    by_cases hm : m < lo
    · have := hout m (Or.inl hm)
      simpa [hm, List.get?_eq_getElem?] using this
    · simp [hm]
  have hdrop : u.drop (hi + 1) = b.drop (hi + 1) := by
    apply List.ext_getElem?
    intro m
    rw [List.getElem?_drop, List.getElem?_drop]
    have := hout (hi + 1 + m) (Or.inr (by omega))
    simpa [List.get?_eq_getElem?] using this
  have hdec : ∀ l : List σ, l.take lo ++ ((l.drop lo).take (hi + 1 - lo) ++ l.drop (hi + 1)) = l := by
    intro l
    have h1 : (l.drop lo).drop (hi + 1 - lo) = l.drop (hi + 1) := by
      rw [List.drop_drop]
      congr 1
      omega
    conv_rhs => rw [← List.take_append_drop lo l]
    rw [← h1, List.take_append_drop]
  have hperm2 : (u.take lo ++ ((u.drop lo).take (hi + 1 - lo) ++ u.drop (hi + 1))).Perm
      (b.take lo ++ ((b.drop lo).take (hi + 1 - lo) ++ b.drop (hi + 1))) := by
    rw [hdec u, hdec b]
    exact hperm
  rw [htake, hdrop] at hperm2
  have := (List.perm_append_left_iff (b.take lo)).mp hperm2
  exact (List.perm_append_right_iff (b.drop (hi + 1))).mp this

/-- Transfer of an elementwise property of a range `[lo, hi]` across a
permutation that leaves everything outside the range in place. -/
theorem region_transfer {P : σ → Prop} {b u : List σ} (hperm : u.Perm b)
    (lo hi : Nat) (hlohi : lo ≤ hi + 1)
    (hout : ∀ m : Nat, m < lo ∨ hi < m → u.get? m = b.get? m)
    (hreg : ∀ (m : Nat) (hm : m < b.length), lo ≤ m → m ≤ hi → P b[m]) :
    ∀ (m : Nat) (hm : m < u.length), lo ≤ m → m ≤ hi → P u[m] := by
  intro m hm hlo hhi
  have hslice := slice_perm_of_agree_outside hperm lo hi hlohi hout
  have hsome : ((u.drop lo).take (hi + 1 - lo))[m - lo]? = some u[m] := by
    rw [List.getElem?_take]
    have hlt : m - lo < hi + 1 - lo := by omega
    rw [if_pos hlt, List.getElem?_drop]
    have hplus : lo + (m - lo) = m := by omega
    rw [hplus, List.getElem?_eq_getElem hm]
  have hmem : u[m] ∈ (u.drop lo).take (hi + 1 - lo) := by
    exact List.getElem?_mem hsome
  have hmem2 : u[m] ∈ (b.drop lo).take (hi + 1 - lo) := hslice.mem_iff.mp hmem
  rw [List.mem_iff_getElem] at hmem2
  obtain ⟨idx, hidx, heq⟩ := hmem2
  have hidxlt : idx < hi + 1 - lo ∧ lo + idx < b.length := by
    rw [List.length_take, List.length_drop] at hidx
    omega
  have heq2 : ((b.drop lo).take (hi + 1 - lo))[idx] = b[lo + idx] := by
    rw [List.getElem_take, List.getElem_drop]
  rw [heq2] at heq
  have := hreg (lo + idx) hidxlt.2 (by omega) (by omega)
  rwa [heq] at this

/-- The upward scan stops at or before any position `k` whose key is not
below the pivot, having passed only keys below the pivot. -/
theorem scanUp_some (key : σ → α) (a : List σ) (pivot : α) (k : Int)
    (hk0 : 0 ≤ k) (hkl : k.toNat < a.length)
    (hstop : ¬ key a[k.toNat] < pivot) :
    ∀ (fuel : Nat) (i : Int), 0 ≤ i → i ≤ k → (k - i).toNat < fuel →
      ∃ i1 : Int, scanUp key a pivot i fuel = some i1 ∧ i ≤ i1 ∧ i1 ≤ k ∧ 0 ≤ i1 ∧
        ∃ h1 : i1.toNat < a.length,
          ¬ key a[i1.toNat] < pivot ∧
          ∀ (m : Nat), i ≤ (m : Int) → (m : Int) < i1 →
            ∀ hm : m < a.length, key a[m] < pivot := by
  intro fuel
  induction fuel with
  | zero => intro i _ _ hf; omega
  | succ f ih =>
    intro i h0 hik hf
    have hil : i.toNat < a.length := by omega
    rw [scanUp, pyGet_eq_getElem a i h0 hil]
    dsimp only
    by_cases hc : key a[i.toNat] < pivot
    · rw [if_pos hc]
      have hik' : i < k := by
        rcases lt_or_eq_of_le hik with h | h
        · exact h
        · exact absurd (h ▸ hc) hstop
      obtain ⟨i1, heq, hii1, hi1k, hi10, h1, hstop1, hpassed⟩ :=
        ih (i + 1) (by omega) (by omega) (by omega)
      refine ⟨i1, heq, by omega, hi1k, hi10, h1, hstop1, ?_⟩
      intro m hm1 hm2 hm
      by_cases hmi : (m : Int) = i
      · have : m = i.toNat := by omega
        subst this
        exact hc
      · exact hpassed m (by omega) hm2 hm
    · rw [if_neg hc]
      exact ⟨i, rfl, le_refl i, hik, h0, hil, hc, fun m hm1 hm2 _ => absurd (lt_of_le_of_lt hm1 hm2) (lt_irrefl _)⟩

/-- The downward scan stops at or after any position `k` whose key is not
above the pivot, having passed only keys above the pivot. -/
theorem scanDown_some (key : σ → α) (a : List σ) (pivot : α) (k : Int)
    (hk0 : 0 ≤ k) (hkl : k.toNat < a.length)
    (hstop : ¬ key a[k.toNat] > pivot) :
    ∀ (fuel : Nat) (j : Int), k ≤ j → j.toNat < a.length → (j - k).toNat < fuel →
      ∃ j1 : Int, scanDown key a pivot j fuel = some j1 ∧ k ≤ j1 ∧ j1 ≤ j ∧ 0 ≤ j1 ∧
        ∃ h1 : j1.toNat < a.length,
          ¬ key a[j1.toNat] > pivot ∧
          ∀ (m : Nat), j1 < (m : Int) → (m : Int) ≤ j →
            ∀ hm : m < a.length, key a[m] > pivot := by
  intro fuel
  induction fuel with
  | zero => intro j _ _ hf; omega
  | succ f ih =>
    intro j hkj hjl hf
    have hj0 : 0 ≤ j := le_trans hk0 hkj
    rw [scanDown, pyGet_eq_getElem a j hj0 hjl]
    dsimp only
    by_cases hc : key a[j.toNat] > pivot
    · rw [if_pos hc]
      have hkj' : k < j := by
        rcases lt_or_eq_of_le hkj with h | h
        · exact h
        · exact absurd (h ▸ hc) hstop
      obtain ⟨j1, heq, hkj1, hj1j, hj10, h1, hstop1, hpassed⟩ :=
        ih (j - 1) (by omega) (by omega) (by omega)
      refine ⟨j1, heq, hkj1, by omega, hj10, h1, hstop1, ?_⟩
      intro m hm1 hm2 hm
      by_cases hmj : (m : Int) = j
      · have : m = j.toNat := by omega
        subst this
        exact hc
      · exact hpassed m hm1 (by omega) hm
    · rw [if_neg hc]
      exact ⟨j, rfl, hkj, le_refl j, hj0, hjl, hc, fun m hm1 hm2 _ => absurd (lt_of_lt_of_le hm1 hm2) (lt_irrefl _)⟩

/-- Reading an element of the array after the swap `a[i], a[j] = a[j], a[i]`. -/
theorem getElem_swap (a : List σ) (iN jN : Nat) (hiN : iN < a.length) (hjN : jN < a.length)
    (m : Nat) (hm : m < ((a.set iN a[jN]).set jN a[iN]).length) (hma : m < a.length) :
    ((a.set iN a[jN]).set jN a[iN])[m] =
      if jN = m then a[iN] else if iN = m then a[jN] else a[m] := by
  rw [List.getElem_set, List.getElem_set]

/-- Invariant of the partition loop: everything strictly left of `i` is at
most the pivot, everything strictly right of `j` is at least the pivot,
anything strictly between `j` and `i` equals the pivot, and while the loop
is running each scan has a stopping element ahead of it. -/
structure PartInv (key : σ → α) (pivot : α) (lo hi : Int) (a : List σ) (i j : Int) : Prop where
  lo0 : 0 ≤ lo
  hilen : hi.toNat < a.length
  ilo : lo ≤ i
  jhi : j ≤ hi
  ihi : i ≤ hi + 1
  jlo : lo - 1 ≤ j
  pre : ∀ (m : Nat) (hm : m < a.length), lo ≤ (m : Int) → (m : Int) < i → key a[m] ≤ pivot
  suf : ∀ (m : Nat) (hm : m < a.length), j < (m : Int) → (m : Int) ≤ hi → pivot ≤ key a[m]
  gap : ∀ (m : Nat) (hm : m < a.length), j < (m : Int) → (m : Int) < i → key a[m] = pivot
  stopu : i ≤ j → ∃ (m : Nat) (hm : m < a.length), i ≤ (m : Int) ∧ (m : Int) ≤ hi ∧ pivot ≤ key a[m]
  stopd : i ≤ j → ∃ (m : Nat) (hm : m < a.length), lo ≤ (m : Int) ∧ (m : Int) ≤ j ∧ key a[m] ≤ pivot
  prog : (i = lo ∧ j = hi ∧
      ∃ (m : Nat) (hm : m < a.length), lo ≤ (m : Int) ∧ (m : Int) ≤ hi ∧ key a[m] = pivot)
    ∨ (lo < i ∧ j < hi)

/-- The partition loop terminates and partitions `[lo, hi]` around the
pivot: on exit the pointers have crossed with only pivot-valued elements
between them, the slice left of `i'` is at most the pivot and the slice
right of `j'` at least, the array outside `[lo, hi]` is untouched, and the
array is a permutation of the input. -/
theorem partLoop_some (key : σ → α) (pivot : α) (lo hi : Int) (hlohi : lo < hi) :
    ∀ (fuel : Nat) (a : List σ) (i j : Int),
      PartInv key pivot lo hi a i j →
      (j - i + 2).toNat ≤ fuel → 1 ≤ fuel →
      ∃ a' i' j', partLoop key a pivot i j fuel = some (a', i', j') ∧
        a'.length = a.length ∧ a'.Perm a ∧
        (∀ m : Nat, (m : Int) < lo ∨ hi < (m : Int) → a'.get? m = a.get? m) ∧
        lo < i' ∧ j' < hi ∧ j' < i' ∧
        (∀ (m : Nat) (hm : m < a'.length), lo ≤ (m : Int) → (m : Int) ≤ j' → key a'[m] ≤ pivot) ∧
        (∀ (m : Nat) (hm : m < a'.length), j' < (m : Int) → (m : Int) < i' → key a'[m] = pivot) ∧
        (∀ (m : Nat) (hm : m < a'.length), i' ≤ (m : Int) → (m : Int) ≤ hi → pivot ≤ key a'[m]) := by
  intro fuel
  induction fuel with
  | zero => intro a i j _ _ h1; omega
  | succ f ih =>
    intro a i j inv hf h1
    have hlo0 : 0 ≤ lo := inv.lo0
    have hhilen : hi.toNat < a.length := inv.hilen
    have hilo : lo ≤ i := inv.ilo
    have hjjhi : j ≤ hi := inv.jhi
    have hiihi : i ≤ hi + 1 := inv.ihi
    have hjjlo : lo - 1 ≤ j := inv.jlo
    rw [partLoop]
    by_cases hij : i ≤ j
    · rw [if_pos hij]
      have hi0 : 0 ≤ i := le_trans inv.lo0 inv.ilo
      have hj0 : 0 ≤ j := le_trans hi0 hij
      have hjlen : j.toNat < a.length := by
        have := inv.jhi
        have := inv.hilen
        omega
      obtain ⟨mu, hmu_len, hmu_i, hmu_hi, hmu_ge⟩ := inv.stopu hij
      obtain ⟨md, hmd_len, hmd_lo, hmd_j, hmd_le⟩ := inv.stopd hij
      obtain ⟨i1, hscanu, hii1, hi1mu, hi10, hi1len, hi1stop, hupassed⟩ :=
        scanUp_some key a pivot (mu : Int) (by omega) (by simpa using hmu_len)
          (by simpa using not_lt.mpr hmu_ge)
          (2 * a.length + 2) i hi0 hmu_i (by omega)
      obtain ⟨j1, hscand, hmdj1, hj1j, hj10, hj1len, hj1stop, hdpassed⟩ :=
        scanDown_some key a pivot (md : Int) (by omega) (by simpa using hmd_len)
          (by simpa using not_lt.mpr hmd_le)
          (2 * a.length + 2) j hmd_j hjlen (by omega)
      simp only [hscanu]
      simp only [hscand]
      have hi1hi : i1 ≤ hi := le_trans hi1mu hmu_hi
      have hloj1 : lo ≤ j1 := le_trans hmd_lo hmdj1
      by_cases hswap : i1 ≤ j1
      · rw [if_pos hswap]
        rw [pyGet_eq_getElem a j1 hj10 hj1len, pyGet_eq_getElem a i1 hi10 hi1len]
        dsimp only
        rw [pySet_eq_set a i1 _ hi10 hi1len]
        dsimp only
        rw [pySet_eq_set _ j1 _ hj10 (by simpa using hj1len)]
        dsimp only
        have hkey_i1 : pivot ≤ key a[i1.toNat] := not_lt.mp hi1stop
        have hkey_j1 : key a[j1.toNat] ≤ pivot := not_lt.mp hj1stop
        rcases eq_or_lt_of_le hswap with heqij | hltij
        · subst heqij
          rw [List.set_set, list_set_self a i1.toNat hi1len]
          have hkeyp : key a[i1.toNat] = pivot := le_antisymm hkey_j1 hkey_i1
          have inv2 : PartInv key pivot lo hi a (i1 + 1) (i1 - 1) := by
            refine ⟨inv.lo0, inv.hilen, by omega, by omega, by omega, by omega,
              ?_, ?_, ?_, ?_, ?_, ?_⟩
            · intro m hm h1' h2'
              by_cases hmi : (m : Int) < i
              · exact inv.pre m hm h1' hmi
              · by_cases hmi1 : (m : Int) < i1
                · exact le_of_lt (hupassed m (by omega) hmi1 hm)
                · have hmeq : m = i1.toNat := by omega
                  subst hmeq
                  exact le_of_eq hkeyp
            · intro m hm h1' h2'
              by_cases hmj : j < (m : Int)
              · exact inv.suf m hm hmj h2'
              · by_cases hmj1 : i1 < (m : Int)
                · exact le_of_lt (hdpassed m hmj1 (by omega) hm)
                · have hmeq : m = i1.toNat := by omega
                  subst hmeq
                  exact ge_of_eq hkeyp
            · intro m hm h1' h2'
              have hmeq : m = i1.toNat := by omega
              subst hmeq
              exact hkeyp
            · intro hcon
              exact absurd hcon (by omega)
            · intro hcon
              exact absurd hcon (by omega)
            · exact Or.inr ⟨by omega, by omega⟩
          obtain ⟨a', i', j', heq, hrest⟩ := ih a (i1 + 1) (i1 - 1) inv2 (by omega) (by omega)
          exact ⟨a', i', j', heq, hrest⟩
        · have hne : j1.toNat ≠ i1.toNat := by omega
          have ha2len : ((a.set i1.toNat a[j1.toNat]).set j1.toNat a[i1.toNat]).length = a.length := by
            simp
          have hgw : ∀ (m : Nat) (hma : m < a.length)
              (hm2 : m < ((a.set i1.toNat a[j1.toNat]).set j1.toNat a[i1.toNat]).length),
              ((a.set i1.toNat a[j1.toNat]).set j1.toNat a[i1.toNat])[m] =
                if j1.toNat = m then a[i1.toNat] else if i1.toNat = m then a[j1.toNat] else a[m] :=
            fun m hma hm2 => getElem_swap a i1.toNat j1.toNat hi1len hj1len m hm2 hma
          have inv2 : PartInv key pivot lo hi
              ((a.set i1.toNat a[j1.toNat]).set j1.toNat a[i1.toNat]) (i1 + 1) (j1 - 1) := by
            refine ⟨inv.lo0, by rw [ha2len]; exact inv.hilen,
              (show lo ≤ i1 + 1 by omega), (show j1 - 1 ≤ hi by omega),
              (show i1 + 1 ≤ hi + 1 by omega), (show lo - 1 ≤ j1 - 1 by omega),
              ?_, ?_, ?_, ?_, ?_, ?_⟩
            · intro m hm h1' h2'
              have hma : m < a.length := by rw [ha2len] at hm; exact hm
              rw [hgw m hma hm]
              by_cases hc1 : j1.toNat = m
              · exact absurd hc1 (by omega)
              · rw [if_neg hc1]
                by_cases hc2 : i1.toNat = m
                · rw [if_pos hc2]
                  exact hkey_j1
                · rw [if_neg hc2]
                  by_cases hmi : (m : Int) < i
                  · exact inv.pre m hma h1' hmi
                  · exact le_of_lt (hupassed m (by omega) (by omega) hma)
            · intro m hm h1' h2'
              have hma : m < a.length := by rw [ha2len] at hm; exact hm
              rw [hgw m hma hm]
              by_cases hc1 : j1.toNat = m
              · rw [if_pos hc1]
                exact hkey_i1
              · rw [if_neg hc1]
                have hc2 : i1.toNat ≠ m := by omega
                rw [if_neg hc2]
                by_cases hmj : j < (m : Int)
                · exact inv.suf m hma hmj h2'
                · exact le_of_lt (hdpassed m (by omega) (by omega) hma)
            · intro m hm h1' h2'
              exact absurd h1' (by omega)
            · intro hle
              refine ⟨j1.toNat, by rw [ha2len]; exact hj1len, by omega, by omega, ?_⟩
              rw [hgw j1.toNat hj1len (by rw [ha2len]; exact hj1len), if_pos rfl]
              exact hkey_i1
            · intro hle
              refine ⟨i1.toNat, by rw [ha2len]; exact hi1len, by omega, by omega, ?_⟩
              rw [hgw i1.toNat hi1len (by rw [ha2len]; exact hi1len), if_neg hne, if_pos rfl]
              exact hkey_j1
            · exact Or.inr ⟨by omega, by omega⟩
          obtain ⟨a', i', j', heq, hlen', hperm', hout', hli', hj'h, hj'i', hpre', hgap', hsuf'⟩ :=
            ih _ (i1 + 1) (j1 - 1) inv2 (by omega) (by omega)
          refine ⟨a', i', j', heq, ?_, ?_, ?_, hli', hj'h, hj'i', hpre', hgap', hsuf'⟩
          · rw [hlen', ha2len]
          · exact hperm'.trans (set_set_perm a i1.toNat j1.toNat hi1len hj1len)
          · intro m hmout
            rw [hout' m hmout]
            have h1' : i1.toNat ≠ m := by omega
            have h2' : j1.toNat ≠ m := by omega
            simp [List.get?_eq_getElem?, List.getElem?_set_ne h1', List.getElem?_set_ne h2']
      · rw [if_neg hswap]
        have hj1i1 : j1 < i1 := by omega
        have hi1j : i1 ≤ j + 1 := by
          by_contra hcon
          push_neg at hcon
          have hp_len : (j + 1).toNat < a.length := by
            have := inv.hilen
            omega
          have h1' := hupassed (j + 1).toNat (by omega) (by omega) hp_len
          have h2' := inv.suf (j + 1).toNat hp_len (by omega) (by omega)
          exact absurd h1' (not_lt.mpr h2')
        have hij1 : i - 1 ≤ j1 := by
          by_contra hcon
          push_neg at hcon
          have hp_len : (i - 1).toNat < a.length := by
            have := inv.hilen
            omega
          have h1' := hdpassed (i - 1).toNat (by omega) (by omega) hp_len
          have h2' := inv.pre (i - 1).toNat hp_len (by omega) (by omega)
          exact absurd h1' (not_lt.mpr h2')
        have inv2 : PartInv key pivot lo hi a i1 j1 := by
          refine ⟨inv.lo0, inv.hilen, le_trans inv.ilo hii1, le_trans hj1j inv.jhi,
            by omega, by omega, ?_, ?_, ?_, ?_, ?_, ?_⟩
          · intro m hm h1' h2'
            by_cases hmi : (m : Int) < i
            · exact inv.pre m hm h1' hmi
            · exact le_of_lt (hupassed m (by omega) h2' hm)
          · intro m hm h1' h2'
            by_cases hmj : j < (m : Int)
            · exact inv.suf m hm hmj h2'
            · exact le_of_lt (hdpassed m h1' (by omega) hm)
          · intro m hm h1' h2'
            exfalso
            have hxu := hupassed m (by omega) h2' hm
            have hxd := hdpassed m h1' (by omega) hm
            exact absurd hxu (not_lt.mpr (le_of_lt hxd))
          · intro hcon
            exact absurd hcon (by omega)
          · intro hcon
            exact absurd hcon (by omega)
          · refine Or.inr ?_
            rcases inv.prog with ⟨hieq, hjeq, mp, hmp_len, hmp_lo, hmp_hi, hmp_eq⟩ | hmidp
            · exfalso
              obtain ⟨i1x, hscanux, _, hi1xmp, _, _, _, _⟩ :=
                scanUp_some key a pivot (mp : Int) (by omega) (by simpa using hmp_len)
                  (by simpa using not_lt.mpr (ge_of_eq hmp_eq))
                  (2 * a.length + 2) i hi0 (by omega) (by omega)
              obtain ⟨j1x, hscandx, hmpj1x, _, _, _, _, _⟩ :=
                scanDown_some key a pivot (mp : Int) (by omega) (by simpa using hmp_len)
                  (by simpa using not_lt.mpr (le_of_eq hmp_eq))
                  (2 * a.length + 2) j (by omega) hjlen (by omega)
              have hieq1 : i1 = i1x := Option.some.inj (hscanu.symm.trans hscanux)
              have hjeq1 : j1 = j1x := Option.some.inj (hscand.symm.trans hscandx)
              omega
            · exact ⟨by omega, by omega⟩
        obtain ⟨a', i', j', heq, hrest⟩ := ih a i1 j1 inv2 (by omega) (by omega)
        exact ⟨a', i', j', heq, hrest⟩
    · rw [if_neg hij]
      have hmid : lo < i ∧ j < hi := by
        rcases inv.prog with ⟨hieq, hjeq, _⟩ | h
        · omega
        · exact h
      refine ⟨a, i, j, rfl, rfl, List.Perm.refl a, fun m _ => rfl, hmid.1, hmid.2, by omega,
        ?_, ?_, ?_⟩
      · intro m hm hlo' hj'
        exact inv.pre m hm hlo' (by omega)
      · intro m hm h1' h2'
        exact inv.gap m hm h1' h2'
      · intro m hm h1' h2'
        exact inv.suf m hm (by omega) h2'

theorem getElem_eq_of_get?_eq {b u : List σ} {m : Nat} (h : u.get? m = b.get? m)
    (hu : m < u.length) (hb : m < b.length) : u[m] = b[m] := by
  rw [List.get?_eq_getElem?, List.get?_eq_getElem?, List.getElem?_eq_getElem hu,
    List.getElem?_eq_getElem hb] at h
  exact Option.some.inj h

/-- The recursive quicksort terminates on every valid range with the fuel
provided, permutes only the range `[lo, hi]`, and leaves it sorted by key. -/
theorem qsRec_some (key : σ → α) :
    ∀ (fuel : Nat) (a : List σ) (lo hi : Int),
      0 ≤ lo → hi < (a.length : Int) → (hi - lo).toNat < fuel →
      ∃ a', qsRec key a lo hi fuel = some a' ∧
        a'.length = a.length ∧ a'.Perm a ∧
        (∀ m : Nat, (m : Int) < lo ∨ hi < (m : Int) → a'.get? m = a.get? m) ∧
        (∀ (m1 m2 : Nat) (h1 : m1 < a'.length) (h2 : m2 < a'.length),
          lo ≤ (m1 : Int) → m1 ≤ m2 → (m2 : Int) ≤ hi → key a'[m1] ≤ key a'[m2]) := by
  intro fuel
  induction fuel with
  | zero => intro a lo hi _ _ hf; omega
  | succ f ih =>
    intro a lo hi hlo0 hhi hf
    rw [qsRec]
    by_cases hlohi : lo ≥ hi
    · rw [if_pos hlohi]
      refine ⟨a, rfl, rfl, List.Perm.refl a, fun m _ => rfl, ?_⟩
      intro m1 m2 h1 h2 hm1 hm12 hm2
      have hm1m2 : m1 = m2 := by omega
      subst hm1m2
      exact le_refl _
    · rw [if_neg hlohi]
      push_neg at hlohi
      have hfd : (lo + hi).fdiv 2 = (lo + hi) / 2 := Int.fdiv_eq_ediv _ (by norm_num)
      have hmid0 : 0 ≤ (lo + hi).fdiv 2 := by rw [hfd]; omega
      have hmid_lo : lo ≤ (lo + hi).fdiv 2 := by rw [hfd]; omega
      have hmid_hi : (lo + hi).fdiv 2 ≤ hi := by rw [hfd]; omega
      have hmidlen : ((lo + hi).fdiv 2).toNat < a.length := by omega
      rw [pyGet_eq_getElem a ((lo + hi).fdiv 2) hmid0 hmidlen]
      dsimp only
      generalize hpv : key a[((lo + hi).fdiv 2).toNat] = pv
      have inv0 : PartInv key pv lo hi a lo hi := by
        refine ⟨hlo0, by omega, le_refl lo, le_refl hi, by omega, by omega,
          ?_, ?_, ?_, ?_, ?_, ?_⟩
        · intro m hm h1' h2'
          exact absurd h2' (by omega)
        · intro m hm h1' h2'
          exact absurd h1' (by omega)
        · intro m hm h1' h2'
          exact absurd h1' (by omega)
        · intro _
          exact ⟨((lo + hi).fdiv 2).toNat, hmidlen, by omega, by omega, ge_of_eq hpv⟩
        · intro _
          exact ⟨((lo + hi).fdiv 2).toNat, hmidlen, by omega, by omega, le_of_eq hpv⟩
        · exact Or.inl ⟨rfl, rfl, ((lo + hi).fdiv 2).toNat, hmidlen, by omega, by omega, hpv⟩
      obtain ⟨a1, i, j, hpart, hlen1, hperm1, hout1, hloi, hjhi1, hji, hpre1, hgap1, hsuf1⟩ :=
        partLoop_some key pv lo hi hlohi ((hi - lo).toNat + 2) a lo hi inv0 (by omega) (by omega)
      rw [hpart]
      dsimp only
      have hstep1 : ∃ a2, (if lo < j then qsRec key a1 lo j f else some a1) = some a2 ∧
          a2.length = a1.length ∧ a2.Perm a1 ∧
          (∀ m : Nat, (m : Int) < lo ∨ j < (m : Int) → a2.get? m = a1.get? m) ∧
          (∀ (m1 m2 : Nat) (h1 : m1 < a2.length) (h2 : m2 < a2.length),
            lo ≤ (m1 : Int) → m1 ≤ m2 → (m2 : Int) ≤ j → key a2[m1] ≤ key a2[m2]) := by
        by_cases hlj : lo < j
        · rw [if_pos hlj]
          exact ih a1 lo j hlo0 (by omega) (by omega)
        · rw [if_neg hlj]
          refine ⟨a1, rfl, rfl, List.Perm.refl a1, fun m _ => rfl, ?_⟩
          intro m1 m2 h1 h2 hm1 hm12 hm2
          have hm1m2 : m1 = m2 := by omega
          subst hm1m2
          exact le_refl _
      obtain ⟨a2, hrec1, hlen2, hperm2, hout2, hsort2⟩ := hstep1
      rw [hrec1]
      dsimp only
      have hstep2 : ∃ a3, (if i < hi then qsRec key a2 i hi f else some a2) = some a3 ∧
          a3.length = a2.length ∧ a3.Perm a2 ∧
          (∀ m : Nat, (m : Int) < i ∨ hi < (m : Int) → a3.get? m = a2.get? m) ∧
          (∀ (m1 m2 : Nat) (h1 : m1 < a3.length) (h2 : m2 < a3.length),
            i ≤ (m1 : Int) → m1 ≤ m2 → (m2 : Int) ≤ hi → key a3[m1] ≤ key a3[m2]) := by
        by_cases hih2 : i < hi
        · rw [if_pos hih2]
          exact ih a2 i hi (by omega) (by omega) (by omega)
        · rw [if_neg hih2]
          refine ⟨a2, rfl, rfl, List.Perm.refl a2, fun m _ => rfl, ?_⟩
          intro m1 m2 h1 h2 hm1 hm12 hm2
          have hm1m2 : m1 = m2 := by omega
          subst hm1m2
          exact le_refl _
      obtain ⟨a3, hrec2, hlen3, hperm3, hout3, hsort3⟩ := hstep2
      rw [hrec2]
      have hl1 : a1.length = a.length := hlen1
      have hl2 : a2.length = a1.length := hlen2
      have hl3 : a3.length = a2.length := hlen3
      refine ⟨a3, rfl, by omega, (hperm3.trans hperm2).trans hperm1, ?_, ?_⟩
      · intro m hmout
        rw [hout3 m (by omega), hout2 m (by omega), hout1 m (by omega)]
      · -- region facts carried to a3
        have hR1 : ∀ (m : Nat) (hm : m < a3.length), lo ≤ (m : Int) → (m : Int) ≤ j →
            key a3[m] ≤ pv := by
          by_cases hlj : lo ≤ j
          · have t1 : ∀ (m : Nat) (hm : m < a2.length), lo.toNat ≤ m → m ≤ j.toNat →
                key a2[m] ≤ pv := by
              exact @region_transfer σ (fun x => key x ≤ pv) a1 a2 hperm2 lo.toNat j.toNat
                (by omega) (fun m hmc => hout2 m (by omega))
                (fun m hm hge hle => hpre1 m hm (by omega) (by omega))
            intro m hm h1' h2'
            have hm2 : m < a2.length := by omega
            have hgeq : a3[m] = a2[m] :=
              getElem_eq_of_get?_eq (hout3 m (by omega)) hm hm2
            rw [hgeq]
            exact t1 m hm2 (by omega) (by omega)
          · intro m hm h1' h2'
            exact absurd (le_trans h1' h2') (by omega)
        have hR2 : ∀ (m : Nat) (hm : m < a3.length), j < (m : Int) → (m : Int) < i →
            key a3[m] = pv := by
          intro m hm h1' h2'
          have hm2 : m < a2.length := by omega
          have hm1 : m < a1.length := by omega
          have hg3 : a3[m] = a2[m] :=
            getElem_eq_of_get?_eq (hout3 m (by omega)) hm hm2
          have hg2 : a2[m] = a1[m] :=
            getElem_eq_of_get?_eq (hout2 m (by omega)) hm2 hm1
          rw [hg3, hg2]
          exact hgap1 m hm1 h1' h2'
        have hR3 : ∀ (m : Nat) (hm : m < a3.length), i ≤ (m : Int) → (m : Int) ≤ hi →
            pv ≤ key a3[m] := by
          have t1 : ∀ (m : Nat) (hm : m < a2.length), i ≤ (m : Int) → (m : Int) ≤ hi →
              pv ≤ key a2[m] := by
            intro m hm h1' h2'
            have hm1 : m < a1.length := by omega
            have hg2 : a2[m] = a1[m] :=
              getElem_eq_of_get?_eq (hout2 m (by omega)) hm hm1
            rw [hg2]
            exact hsuf1 m hm1 h1' h2'
          by_cases hih2 : i ≤ hi
          · have t2 : ∀ (m : Nat) (hm : m < a3.length), i.toNat ≤ m → m ≤ hi.toNat →
                pv ≤ key a3[m] := by
              exact @region_transfer σ (fun x => pv ≤ key x) a2 a3 hperm3 i.toNat hi.toNat
                (by omega) (fun m hmc => hout3 m (by omega))
                (fun m hm hge hle => t1 m hm (by omega) (by omega))
            intro m hm h1' h2'
            exact t2 m hm (by omega) (by omega)
          · intro m hm h1' h2'
            exact absurd (le_trans h1' h2') (by omega)
        have hS1 : ∀ (m1 m2 : Nat) (h1 : m1 < a3.length) (h2 : m2 < a3.length),
            lo ≤ (m1 : Int) → m1 ≤ m2 → (m2 : Int) ≤ j → key a3[m1] ≤ key a3[m2] := by
          intro m1 m2 h1 h2 hm1 hm12 hm2
          have h1' : m1 < a2.length := by omega
          have h2' : m2 < a2.length := by omega
          have hg1 : a3[m1] = a2[m1] :=
            getElem_eq_of_get?_eq (hout3 m1 (by omega)) h1 h1'
          have hg2 : a3[m2] = a2[m2] :=
            getElem_eq_of_get?_eq (hout3 m2 (by omega)) h2 h2'
          rw [hg1, hg2]
          exact hsort2 m1 m2 h1' h2' hm1 hm12 hm2
        intro m1 m2 h1 h2 hm1lo hm12 hm2hi
        rcases le_or_lt ((m2 : Int)) j with hc1 | hc1
        · exact hS1 m1 m2 h1 h2 hm1lo hm12 hc1
        · rcases le_or_lt i ((m1 : Int)) with hc2 | hc2
          · exact hsort3 m1 m2 h1 h2 hc2 hm12 hm2hi
          · -- m1 ≤ j or m1 in the gap; m2 in the gap or right part
            have hle1 : key a3[m1] ≤ pv := by
              rcases le_or_lt ((m1 : Int)) j with hd | hd
              · exact hR1 m1 h1 hm1lo hd
              · exact le_of_eq (hR2 m1 h1 hd hc2)
            have hle2 : pv ≤ key a3[m2] := by
              rcases le_or_lt i ((m2 : Int)) with hd | hd
              · exact hR3 m2 h2 hd hm2hi
              · exact ge_of_eq (hR2 m2 h2 hc1 hd)
            exact le_trans hle1 hle2

/-- `quicksort_students` always succeeds and returns a sorted permutation. -/
theorem quicksort_students_spec (key : σ → α) (arr : List σ) :
    ∃ out, quicksort_students key arr = some out ∧ out.Perm arr ∧
      out.length = arr.length ∧ List.Pairwise (fun x y => key x ≤ key y) out := by
  rw [quicksort_students]
  by_cases hlen : arr.length ≤ 1
  · rw [if_pos hlen]
    refine ⟨arr, rfl, List.Perm.refl arr, rfl, ?_⟩
    cases arr with
    | nil => exact List.Pairwise.nil
    | cons x t =>
      cases t with
      | nil => simp
      | cons y u => simp at hlen
  · rw [if_neg hlen]
    push_neg at hlen
    obtain ⟨a', heq, hl, hperm, hout, hsort⟩ :=
      qsRec_some key (arr.length + 1) arr 0 ((arr.length : Int) - 1) (le_refl 0)
        (by omega) (by omega)
    refine ⟨a', heq, hperm, hl, ?_⟩
    rw [List.pairwise_iff_getElem]
    intro m1 m2 hm1 hm2 hlt
    exact hsort m1 m2 hm1 hm2 (by omega) (by omega) (by omega)

end QuicksortProofs

/-!
## Persistence round trip and load-time validation
-/

theorem from_dict_to_dict (s : Student) : Student.from_dict (Student.to_dict s) = some s := by
  cases s
  rfl

theorem mapM_loop_from_dict (t : List Student) :
    ∀ acc : List Student,
      List.mapM.loop Student.from_dict (t.map Student.to_dict) acc = some (acc.reverse ++ t) := by
  induction t with
  | nil => intro acc; simp [List.mapM.loop]
  | cons s t ih =>
    intro acc
    simp only [List.map_cons, List.mapM.loop, from_dict_to_dict]
    simp [ih (s :: acc)]

theorem mapM_from_dict_to_dict (l : List Student) :
    (l.map Student.to_dict).mapM Student.from_dict = some l := by
  have := mapM_loop_from_dict l []
  simpa [List.mapM] using this

/-- C4: saving the full snapshot and loading it back reproduces an equal
sequence of records — same number, same roll/name/gpa values, same order. -/
theorem save_load_round_trip (l : List Student) :
    load_students_from_file (some (save_students_to_file l)) = l := by
  simp only [load_students_from_file, save_students_to_file, mapM_from_dict_to_dict]

/-- C8 counterexample: loading a file holding one record with GPA 4.5
silently accepts the record into the store, unchanged and unflagged, even
though 4.5 is outside [0, 4]; the load neither rejects nor flags it. -/
theorem load_out_of_range_gpa_accepted :
    load_students_from_file (some (.arr [.obj [("roll".data, .str "x".data),
        ("name".data, .str "Y".data), ("gpa".data, .num (mkRat 9 2))]]))
      = [⟨"x".data, "Y".data, mkRat 9 2⟩] ∧ ¬ (mkRat 9 2 ≤ 4) := by
  exact ⟨by decide, by decide⟩

/-- C8 (amended): the load path performs no GPA range validation at all —
any well-formed record row is deterministically accepted verbatim,
whatever its gpa value. -/
theorem load_accepts_any_gpa (r n : PyStr) (g : ℚ) :
    load_students_from_file (some (.arr [.obj [("roll".data, .str r),
        ("name".data, .str n), ("gpa".data, .num g)]])) = [⟨r, n, g⟩] := by
  rfl

/-!
## The sort claims
-/

/-- C10: for every finite input list and every key function drawn from a
linearly ordered type, `quicksort_students` terminates with a result: the
fuel is never exhausted, every index stays in bounds, and the function is
total. -/
theorem quicksort_students_total {σ α : Type} [LinearOrder α] (key : σ → α) (arr : List σ) :
    ∃ out, quicksort_students key arr = some out := by
  obtain ⟨out, heq, _, _, _⟩ := quicksort_students_spec key arr
  exact ⟨out, heq⟩

/-- C3: the store's sort operation succeeds on every container and yields
non-decreasing normalized rolls (by roll), non-decreasing lower-cased
names (by name), and non-increasing GPA values (by GPA). -/
theorem sort_and_refresh_sorted (st : StoreState) (k : SortKey) :
    ∃ st', sort_and_refresh st k = some st' ∧
      match k with
      | .roll => List.Pairwise
          (fun s t => normalize_roll s.roll ≤ normalize_roll t.roll) st'.linked_list
      | .name => List.Pairwise
          (fun s t => pyLower s.name ≤ pyLower t.name) st'.linked_list
      | .gpa => List.Pairwise (fun s t => s.gpa ≥ t.gpa) st'.linked_list := by
  cases k with
  | roll =>
    obtain ⟨out, heq, _, _, hpair⟩ :=
      quicksort_students_spec (fun s : Student => normalize_roll s.roll) st.linked_list
    refine ⟨⟨out, rebuild_hash_map out⟩, ?_, ?_⟩
    · simp [sort_and_refresh, heq]
    · simpa using hpair
  | name =>
    obtain ⟨out, heq, _, _, hpair⟩ :=
      quicksort_students_spec (fun s : Student => pyLower s.name) st.linked_list
    refine ⟨⟨out, rebuild_hash_map out⟩, ?_, ?_⟩
    · simp [sort_and_refresh, heq]
    · simpa using hpair
  | gpa =>
    obtain ⟨out, heq, _, _, hpair⟩ :=
      quicksort_students_spec (fun s : Student => s.gpa) st.linked_list
    refine ⟨⟨out.reverse, rebuild_hash_map out.reverse⟩, ?_, ?_⟩
    · simp [sort_and_refresh, heq]
    · exact List.pairwise_reverse.mpr hpair

/-- The `float(...)` behaviour of the GPA strings typed in the C6 scenario. -/
def scenario_pyfloat : PyStr → Option ℚ := fun s =>
  if s = "3.5".data then some (mkRat 35 10)
  else if s = "3.9".data then some (mkRat 39 10)
  else none

/-- The store after `add("a1","Alice",3.5)`, `add("b2","Bob",3.9)`,
`add("c3","Cara",3.9)` starting from an empty store. -/
def scenario_store : StoreState :=
  (add_student scenario_pyfloat
    ((add_student scenario_pyfloat
      ((add_student scenario_pyfloat (load_data none)
        "a1".data "Alice".data "3.5".data).1)
      "b2".data "Bob".data "3.9".data).1)
    "c3".data "Cara".data "3.9".data).1

/-- C6: on the three-record scenario store, sorting by GPA produces the
order b2, c3, a1 — the two 3.9-GPA records adjacent, in the relative order
the middle-pivot partition produces, with a1 last. -/
theorem scenario_sort_by_gpa :
    (sort_and_refresh scenario_store .gpa).map (fun st => st.linked_list) =
      some [⟨"B2".data, "Bob".data, mkRat 39 10⟩,
        ⟨"C3".data, "Cara".data, mkRat 39 10⟩,
        ⟨"A1".data, "Alice".data, mkRat 35 10⟩] := by
  decide

/-!
## Normalization: `strip`/`upper` facts
-/

theorem char_ofNat_toNat (c : Char) (h : c.toNat ≥ 97 ∧ c.toNat ≤ 122) :
    (Char.ofNat (c.toNat - 32)).toNat = c.toNat - 32 := by
  have h32 : c.toNat - 32 < 55296 := by omega
  unfold Char.ofNat
  rw [dif_pos (Or.inl h32 : Nat.isValidChar (c.toNat - 32))]
  rfl

theorem char_ws_toNat (c : Char) (hws : c.isWhitespace = true) :
    c.toNat = 32 ∨ c.toNat = 9 ∨ c.toNat = 13 ∨ c.toNat = 10 := by
  simp [Char.isWhitespace] at hws
  rcases hws with ((h | h) | h) | h <;> subst h <;> decide

/-- `upper()` maps whitespace to whitespace and non-whitespace to
non-whitespace. -/
theorem toUpper_isWhitespace (c : Char) :
    (Char.toUpper c).isWhitespace = c.isWhitespace := by
  by_cases h : c.toNat ≥ 97 ∧ c.toNat ≤ 122
  · have hk := char_ofNat_toNat c h
    have h1 : c.isWhitespace = false := by
      by_contra hcon
      rw [Bool.not_eq_false] at hcon
      have := char_ws_toNat c hcon
      omega
    have h2 : (Char.ofNat (c.toNat - 32)).isWhitespace = false := by
      by_contra hcon
      rw [Bool.not_eq_false] at hcon
      have := char_ws_toNat _ hcon
      rw [hk] at this
      omega
    simp only [Char.toUpper]
    rw [if_pos h, h1, h2]
  · simp [Char.toUpper, h]

theorem toUpper_toUpper (c : Char) :
    Char.toUpper (Char.toUpper c) = Char.toUpper c := by
  by_cases h : c.toNat ≥ 97 ∧ c.toNat ≤ 122
  · have hk := char_ofNat_toNat c h
    have hcond : ¬ ((Char.ofNat (c.toNat - 32)).toNat ≥ 97 ∧
        (Char.ofNat (c.toNat - 32)).toNat ≤ 122) := by
      rw [hk]
      omega
    simp [Char.toUpper, h, hcond]
  · simp [Char.toUpper, h]

theorem pyUpper_pyUpper (l : PyStr) : pyUpper (pyUpper l) = pyUpper l := by
  simp only [pyUpper, List.map_map]
  congr 1
  funext c
  exact toUpper_toUpper c

theorem dropWhile_pyUpper (l : PyStr) :
    (pyUpper l).dropWhile Char.isWhitespace = pyUpper (l.dropWhile Char.isWhitespace) := by
  rw [pyUpper, List.dropWhile_map]
  have hfe : (Char.isWhitespace ∘ Char.toUpper) = Char.isWhitespace :=
    funext toUpper_isWhitespace
  rw [hfe]
  rfl

theorem pyUpper_reverse (l : PyStr) : (pyUpper l).reverse = pyUpper l.reverse := by
  simp [pyUpper, List.map_reverse]

/-- The stripped string has no leading whitespace. -/
theorem dropWhile_pyStrip (s : PyStr) :
    (pyStrip s).dropWhile Char.isWhitespace = pyStrip s := by
  rw [pyStrip]
  have hidem : (s.dropWhile Char.isWhitespace).dropWhile Char.isWhitespace
      = s.dropWhile Char.isWhitespace := List.dropWhile_idempotent _ _
  have hdecomp : s.dropWhile Char.isWhitespace =
      ((s.dropWhile Char.isWhitespace).reverse.dropWhile Char.isWhitespace).reverse
        ++ ((s.dropWhile Char.isWhitespace).reverse.takeWhile Char.isWhitespace).reverse := by
    conv_lhs => rw [← List.reverse_reverse (s.dropWhile Char.isWhitespace)]
    rw [← List.takeWhile_append_dropWhile Char.isWhitespace
      (s.dropWhile Char.isWhitespace).reverse]
    rw [List.reverse_append, List.takeWhile_append_dropWhile]
  cases hres : ((s.dropWhile Char.isWhitespace).reverse.dropWhile Char.isWhitespace).reverse with
  | nil => simp
  | cons a t' =>
    rw [hres] at hdecomp
    have hne : Char.isWhitespace a = false := by
      by_contra hcon
      rw [Bool.not_eq_false] at hcon
      rw [hdecomp, List.cons_append, List.dropWhile_cons, hcon] at hidem
      simp only [if_true] at hidem
      have hlen := (List.dropWhile_sublist Char.isWhitespace
        (l := t' ++ ((s.dropWhile Char.isWhitespace).reverse.takeWhile Char.isWhitespace).reverse)).length_le
      rw [hidem] at hlen
      simp at hlen
    rw [List.dropWhile_cons, hne]
    simp

/-- The stripped string has no trailing whitespace. -/
theorem dropWhile_reverse_pyStrip (s : PyStr) :
    (pyStrip s).reverse.dropWhile Char.isWhitespace = (pyStrip s).reverse := by
  rw [pyStrip, List.reverse_reverse]
  exact List.dropWhile_idempotent _ _

theorem pyStrip_eq_self (u : PyStr) (h1 : u.dropWhile Char.isWhitespace = u)
    (h2 : u.reverse.dropWhile Char.isWhitespace = u.reverse) : pyStrip u = u := by
  rw [pyStrip, h1, h2, List.reverse_reverse]

theorem pyStrip_pyStrip (s : PyStr) : pyStrip (pyStrip s) = pyStrip s :=
  pyStrip_eq_self _ (dropWhile_pyStrip s) (dropWhile_reverse_pyStrip s)

theorem pyStrip_pyUpper_pyStrip (s : PyStr) :
    pyStrip (pyUpper (pyStrip s)) = pyUpper (pyStrip s) := by
  refine pyStrip_eq_self _ ?_ ?_
  · rw [dropWhile_pyUpper, dropWhile_pyStrip]
  · rw [pyUpper_reverse, dropWhile_pyUpper, dropWhile_reverse_pyStrip]

/-- Normalization of a roll is idempotent. -/
theorem normalize_roll_idem (s : PyStr) :
    normalize_roll (normalize_roll s) = normalize_roll s := by
  rw [normalize_roll, normalize_roll, pyStrip_pyUpper_pyStrip, pyUpper_pyUpper]

/-!
## The hash index and the store invariant
-/

theorem dictContains_iff (m : PyDict) (k : PyStr) :
    dictContains m k = true ↔ k ∈ m.map Prod.fst := by
  simp [dictContains, List.any_eq_true, List.mem_map, beq_iff_eq]

/-- The store's operating invariant: every stored roll is already
normalized, rolls are pairwise distinct, and the hash map is exactly the
one `rebuild_hash_map` produces from the container. -/
def StoreInv (st : StoreState) : Prop :=
  (∀ s ∈ st.linked_list, normalize_roll s.roll = s.roll) ∧
  (st.linked_list.map Student.roll).Nodup ∧
  st.hash_map = rebuild_hash_map st.linked_list ∧
  (∀ s ∈ st.linked_list, s.roll ≠ [])

theorem rebuild_aux :
    ∀ (t : List Student) (n : Nat) (acc : PyDict),
      (∀ s ∈ t, normalize_roll s.roll = s.roll) →
      ((t.map Student.roll).Nodup) →
      (∀ s ∈ t, s.roll ∉ acc.map Prod.fst) →
      (t.enumFrom n).foldl (fun m p => dictSet m (normalize_roll p.2.roll) p.1) acc
        = acc ++ (t.enumFrom n).map (fun p => (p.2.roll, p.1)) := by
  intro t
  induction t with
  | nil => intro n acc _ _ _; simp
  | cons s t ih =>
    intro n acc h1 h2 h3
    rw [List.enumFrom_cons]
    simp only [List.foldl_cons, List.map_cons]
    have hnorm : normalize_roll s.roll = s.roll := h1 s (by simp)
    have hnotin : s.roll ∉ acc.map Prod.fst := h3 s (by simp)
    have hset : dictSet acc (normalize_roll s.roll) n = acc ++ [(s.roll, n)] := by
      rw [hnorm, dictSet]
      have : dictContains acc s.roll = false := by
        rw [← Bool.not_eq_true, dictContains_iff]
        exact hnotin
      rw [this]
      simp
    rw [hset]
    have h2' : s.roll ∉ t.map Student.roll ∧ (t.map Student.roll).Nodup := by
      rw [List.map_cons, List.nodup_cons] at h2
      exact h2
    rw [ih (n + 1) (acc ++ [(s.roll, n)]) (fun q hq => h1 q (by simp [hq])) h2'.2 ?_]
    · simp
    · intro q hq
      simp only [List.map_append, List.mem_append]
      rintro (hc | hc)
      · exact h3 q (by simp [hq]) hc
      · simp at hc
        exact h2'.1 (List.mem_map.mpr ⟨q, hq, hc⟩)

/-- On a container with normalized, pairwise-distinct rolls, rebuilding
the hash map produces exactly one entry per node, keyed by its roll, in
container order. -/
theorem rebuild_hash_map_eq (l : List Student)
    (h1 : ∀ s ∈ l, normalize_roll s.roll = s.roll)
    (h2 : (l.map Student.roll).Nodup) :
    rebuild_hash_map l = l.enum.map (fun p => (p.2.roll, p.1)) := by
  rw [rebuild_hash_map, List.enum]
  rw [rebuild_aux l 0 [] h1 h2 (by simp)]
  simp

theorem dictGet_enumFrom_none :
    ∀ (t : List Student) (n : Nat) (k : PyStr), k ∉ t.map Student.roll →
      dictGet ((t.enumFrom n).map (fun p => (p.2.roll, p.1))) k = none := by
  intro t
  induction t with
  | nil => intro n k _; rfl
  | cons s t ih =>
    intro n k hk
    rw [List.enumFrom_cons, List.map_cons]
    have hne : ¬ (s.roll == k) = true := by
      simp only [beq_iff_eq]
      intro hc
      exact hk (by simp [← hc])
    simp only [dictGet, List.find?_cons]
    rcases hb : (s.roll == k) with _ | _
    · have := ih (n + 1) k (fun hc => hk (by simp at hc ⊢; exact Or.inr hc))
      simpa [dictGet] using this
    · exact absurd hb hne

theorem dictGet_enumFrom_some :
    ∀ (t : List Student) (n : Nat) (k : PyStr) (v : Nat),
      dictGet ((t.enumFrom n).map (fun p => (p.2.roll, p.1))) k = some v →
      ∃ (i : Nat) (h : i < t.length), v = n + i ∧ (t.get ⟨i, h⟩).roll = k := by
  intro t
  induction t with
  | nil => intro n k v h; simp [dictGet] at h
  | cons s t ih =>
    intro n k v h
    rw [List.enumFrom_cons, List.map_cons] at h
    simp only [dictGet, List.find?_cons] at h
    rcases hb : (s.roll == k) with _ | _
    · rw [hb] at h
      obtain ⟨i, hi, hv, hroll⟩ := ih (n + 1) k v (by simpa [dictGet] using h)
      exact ⟨i + 1, by simpa using hi, by omega, by simpa using hroll⟩
    · rw [hb] at h
      simp at h
      exact ⟨0, by simp, by omega, by simpa using beq_iff_eq.mp hb⟩

theorem dictGet_enumFrom_hit :
    ∀ (t : List Student) (n : Nat) (k : PyStr) (i : Nat) (h : i < t.length),
      (t.map Student.roll).Nodup → (t.get ⟨i, h⟩).roll = k →
      dictGet ((t.enumFrom n).map (fun p => (p.2.roll, p.1))) k = some (n + i) := by
  intro t
  induction t with
  | nil => intro n k i h _ _; simp at h
  | cons s t ih =>
    intro n k i h h2 hroll
    have h2' : s.roll ∉ t.map Student.roll ∧ (t.map Student.roll).Nodup := by
      rw [List.map_cons, List.nodup_cons] at h2
      exact h2
    rw [List.enumFrom_cons, List.map_cons]
    simp only [dictGet, List.find?_cons]
    cases i with
    | zero =>
      simp at hroll
      rw [show (s.roll == k) = true from beq_iff_eq.mpr hroll]
      simp
    | succ i' =>
      have hi' : i' < t.length := by simpa using h
      have hroll' : (t.get ⟨i', hi'⟩).roll = k := by simpa using hroll
      have hne : ¬ (s.roll == k) = true := by
        simp only [beq_iff_eq]
        intro hc
        have hmem : k ∈ t.map Student.roll :=
          List.mem_map.mpr ⟨t.get ⟨i', hi'⟩, List.get_mem t i' hi', hroll'⟩
        exact h2'.1 (hc ▸ hmem)
      rcases hb : (s.roll == k) with _ | _
      · have := ih (n + 1) k i' hi' h2'.2 hroll'
        simp only [dictGet] at this
        rw [show n + (i' + 1) = (n + 1) + i' from by omega]
        simpa using this
      · exact absurd hb hne

theorem storeInv_keys {st : StoreState} (h : StoreInv st) :
    st.hash_map.map Prod.fst = st.linked_list.map Student.roll := by
  rw [h.2.2.1, rebuild_hash_map_eq _ h.1 h.2.1, List.map_map]
  have h1 : (Prod.fst ∘ fun p : Nat × Student => (p.2.roll, p.1))
      = fun p : Nat × Student => p.2.roll := rfl
  rw [h1]
  have h2 : (fun p : Nat × Student => p.2.roll) = Student.roll ∘ Prod.snd := rfl
  rw [h2, ← List.map_map, List.enum_map_snd]

theorem storeInv_dictGet_some {st : StoreState} (h : StoreInv st) (k : PyStr) (i : Nat) :
    dictGet st.hash_map k = some i ↔
      ∃ hl : i < st.linked_list.length, (st.linked_list.get ⟨i, hl⟩).roll = k := by
  rw [h.2.2.1, rebuild_hash_map_eq _ h.1 h.2.1, List.enum]
  constructor
  · intro hg
    obtain ⟨i', hi', hv, hroll⟩ := dictGet_enumFrom_some st.linked_list 0 k i hg
    have hii : i = i' := by omega
    subst hii
    exact ⟨hi', hroll⟩
  · rintro ⟨hl, hroll⟩
    have := dictGet_enumFrom_hit st.linked_list 0 k i hl h.2.1 hroll
    simpa using this

theorem storeInv_dictGet_none {st : StoreState} (h : StoreInv st) (k : PyStr) :
    dictGet st.hash_map k = none ↔ k ∉ st.linked_list.map Student.roll := by
  constructor
  · intro hg hmem
    obtain ⟨s, hs, hr⟩ := List.mem_map.mp hmem
    obtain ⟨fi, hgi⟩ := List.mem_iff_get.mp hs
    have := (storeInv_dictGet_some h k fi.1).mpr ⟨fi.2, by rw [show (⟨fi.1, fi.2⟩ : Fin _) = fi from rfl, hgi, hr]⟩
    rw [hg] at this
    exact absurd this (by simp)
  · intro hmem
    cases hgo : dictGet st.hash_map k with
    | none => rfl
    | some v =>
      obtain ⟨hl, hroll⟩ := (storeInv_dictGet_some h k v).mp hgo
      exact absurd (List.mem_map.mpr ⟨_, List.get_mem st.linked_list v hl, hroll⟩) hmem

theorem storeInv_dictContains {st : StoreState} (h : StoreInv st) (k : PyStr) :
    dictContains st.hash_map k = true ↔ k ∈ st.linked_list.map Student.roll := by
  rw [dictContains_iff, storeInv_keys h]

theorem storeInv_empty : StoreInv (load_data none) := by
  refine ⟨?_, ?_, ?_, ?_⟩ <;> simp [load_data, load_students_from_file, rebuild_hash_map]

theorem validate_inputs_some (pf : PyStr → Option ℚ) (rr nr gr : PyStr)
    (r n : PyStr) (g : ℚ) (h : validate_inputs pf true rr nr gr = some (r, n, g)) :
    r = normalize_roll rr ∧ n = pyStrip nr ∧ pf (pyStrip gr) = some g ∧ 0 ≤ g ∧ g ≤ 4 := by
  simp only [validate_inputs] at h
  split at h
  · exact absurd h (by simp)
  · split at h
    · exact absurd h (by simp)
    · split at h
      · exact absurd h (by simp)
      · cases hpf : pf (pyStrip gr) with
        | none => rw [hpf] at h; exact absurd h (by simp)
        | some g' =>
          rw [hpf] at h
          dsimp only at h
          split at h
          · exact absurd h (by simp)
          · rename_i hcond
            simp only [Option.some.injEq, Prod.mk.injEq] at h
            obtain ⟨h1, h2, h3⟩ := h
            simp only [Bool.or_eq_true, decide_eq_true_eq, not_or] at hcond
            push_neg at hcond
            exact ⟨h1.symm, h2.symm, congrArg some h3, by subst h3; exact hcond.1,
              by subst h3; exact hcond.2⟩

theorem add_student_invalid (pf : PyStr → Option ℚ) (st : StoreState) (rr nr gr : PyStr)
    (h : validate_inputs pf true rr nr gr = none) :
    add_student pf st rr nr gr = (st, .invalidInput) := by
  simp [add_student, h]

theorem add_student_dup (pf : PyStr → Option ℚ) (st : StoreState) (rr nr gr : PyStr)
    (r n : PyStr) (g : ℚ) (hv : validate_inputs pf true rr nr gr = some (r, n, g))
    (hc : dictContains st.hash_map r = true) :
    add_student pf st rr nr gr = (st, .duplicateRoll) := by
  simp [add_student, hv, hc]

theorem add_student_ok_eq (pf : PyStr → Option ℚ) (st : StoreState) (rr nr gr : PyStr)
    (r n : PyStr) (g : ℚ) (hv : validate_inputs pf true rr nr gr = some (r, n, g))
    (hc : dictContains st.hash_map r = false) :
    add_student pf st rr nr gr =
      (⟨st.linked_list ++ [⟨r, n, g⟩],
        rebuild_hash_map (st.linked_list ++ [⟨r, n, g⟩])⟩, .ok) := by
  simp [add_student, hv, hc, persist_and_refresh]

theorem nodup_set_of_not_mem {L : List PyStr} (h : L.Nodup) (i : Nat) (hi : i < L.length)
    (b : PyStr) (hb : b ∉ L) : (L.set i b).Nodup := by
  have hdec : L.set i b = L.take i ++ b :: L.drop (i + 1) := by
    rw [List.set_eq_take_append_cons_drop]
    simp [hi]
  have hL : L = L.take i ++ L[i] :: L.drop (i + 1) := by
    conv_lhs => rw [← List.take_append_drop i L, List.drop_eq_getElem_cons hi]
  rw [hdec]
  rw [hL] at h hb
  rw [List.nodup_append] at h ⊢
  obtain ⟨h1, h2, h3⟩ := h
  refine ⟨h1, ?_, ?_⟩
  · rw [List.nodup_cons]
    refine ⟨fun hmem => hb ?_, (List.nodup_cons.mp h2).2⟩
    exact List.mem_append.mpr (Or.inr (List.mem_cons.mpr (Or.inr hmem)))
  · intro x hx hmem
    rcases List.mem_cons.mp hmem with hxb | hxd
    · exact hb (List.mem_append.mpr (Or.inl (hxb ▸ hx)))
    · exact h3 hx (List.mem_cons.mpr (Or.inr hxd))

theorem remove_by_roll_spec :
    ∀ (l : List Student) (k : PyStr),
      (remove_by_roll l k).1 = l.eraseP (fun s => s.roll == k) ∧
      (remove_by_roll l k).2 = l.any (fun s => s.roll == k) := by
  intro l
  induction l with
  | nil => intro k; simp [remove_by_roll]
  | cons s t ih =>
    intro k
    by_cases h : s.roll = k
    · simp [remove_by_roll, List.eraseP_cons, List.any_cons, h]
    · have hb : (s.roll == k) = false := by simpa using h
      simp [remove_by_roll, List.eraseP_cons, List.any_cons, h, hb, ih k]

/-- The container after `add_student` keeps the invariant. -/
theorem storeInv_add (pf : PyStr → Option ℚ) (st : StoreState) (rr nr gr : PyStr)
    (hinv : StoreInv st) : StoreInv (add_student pf st rr nr gr).1 := by
  cases hv : validate_inputs pf true rr nr gr with
  | none => rw [add_student_invalid pf st rr nr gr hv]; exact hinv
  | some t =>
    obtain ⟨r, n, g⟩ := t
    obtain ⟨hr, hn, _, _, _⟩ := validate_inputs_some pf rr nr gr r n g hv
    cases hc : dictContains st.hash_map r with
    | true => rw [add_student_dup pf st rr nr gr r n g hv hc]; exact hinv
    | false =>
      rw [add_student_ok_eq pf st rr nr gr r n g hv hc]
      have hnotmem : r ∉ st.linked_list.map Student.roll := by
        intro hmem
        rw [← storeInv_dictContains hinv] at hmem
        rw [hc] at hmem
        exact absurd hmem (by simp)
      have hrnorm : normalize_roll r = r := by rw [hr, normalize_roll_idem]
      refine ⟨?_, ?_, rfl, ?_⟩
      · intro s hs
        rcases List.mem_append.mp hs with hmem | hmem
        · exact hinv.1 s hmem
        · simp at hmem
          rw [hmem]
          exact hrnorm
      · rw [List.map_append, List.nodup_append]
        refine ⟨hinv.2.1, by simp, ?_⟩
        intro x hx hmem
        simp at hmem
        rw [hmem] at hx
        exact hnotmem hx
      · intro s hs
        rcases List.mem_append.mp hs with hmem | hmem
        · exact hinv.2.2.2 s hmem
        · simp at hmem
          rw [hmem]
          simp only [ne_eq]
          intro hre
          have : normalize_roll rr ≠ [] := by
            have := hv
            simp only [validate_inputs] at this
            split at this
            · exact absurd this (by simp)
            · rename_i hcon
              simp only [Bool.true_and, List.isEmpty_iff] at hcon
              intro hc2
              exact hcon (by simpa [hc2] using hc2)
          exact this (hr ▸ hre)

theorem validate_roll_ne_nil (pf : PyStr → Option ℚ) (rr nr gr : PyStr) (r n : PyStr) (g : ℚ)
    (hv : validate_inputs pf true rr nr gr = some (r, n, g)) : r ≠ [] := by
  obtain ⟨hr, _, _, _, _⟩ := validate_inputs_some pf rr nr gr r n g hv
  intro hnil
  simp only [validate_inputs] at hv
  split at hv
  · exact absurd hv (by simp)
  · rename_i hcon
    apply hcon
    simp [List.isEmpty_iff, ← hr, hnil]

theorem update_student_invalid (pf : PyStr → Option ℚ) (st : StoreState) (sr rr nr gr : PyStr)
    (h : validate_inputs pf true rr nr gr = none) :
    update_student pf st sr rr nr gr = (st, .invalidInput) := by
  simp [update_student, h]

theorem update_student_dup (pf : PyStr → Option ℚ) (st : StoreState) (sr rr nr gr : PyStr)
    (r n : PyStr) (g : ℚ) (hv : validate_inputs pf true rr nr gr = some (r, n, g))
    (hne : r ≠ normalize_roll sr) (hc : dictContains st.hash_map r = true) :
    update_student pf st sr rr nr gr = (st, .duplicateRoll) := by
  simp [update_student, hv, hne, hc]

theorem update_student_notFound (pf : PyStr → Option ℚ) (st : StoreState) (sr rr nr gr : PyStr)
    (r n : PyStr) (g : ℚ) (hv : validate_inputs pf true rr nr gr = some (r, n, g))
    (hcond : ¬(r ≠ normalize_roll sr ∧ dictContains st.hash_map r = true))
    (hg : dictGet st.hash_map (normalize_roll sr) = none) :
    update_student pf st sr rr nr gr = (st, .notFound) := by
  simp only [update_student, hv]
  rw [if_neg hcond, hg]

theorem update_student_ok_eq (pf : PyStr → Option ℚ) (st : StoreState) (sr rr nr gr : PyStr)
    (r n : PyStr) (g : ℚ) (hv : validate_inputs pf true rr nr gr = some (r, n, g))
    (hcond : ¬(r ≠ normalize_roll sr ∧ dictContains st.hash_map r = true))
    (idx : Nat) (hg : dictGet st.hash_map (normalize_roll sr) = some idx) :
    update_student pf st sr rr nr gr =
      (⟨st.linked_list.set idx ⟨r, n, g⟩,
        rebuild_hash_map (st.linked_list.set idx ⟨r, n, g⟩)⟩, .ok) := by
  simp only [update_student, hv]
  rw [if_neg hcond, hg]
  simp [persist_and_refresh]

theorem storeInv_update (pf : PyStr → Option ℚ) (st : StoreState) (sr rr nr gr : PyStr)
    (hinv : StoreInv st) : StoreInv (update_student pf st sr rr nr gr).1 := by
  cases hv : validate_inputs pf true rr nr gr with
  | none => rw [update_student_invalid pf st sr rr nr gr hv]; exact hinv
  | some t =>
    obtain ⟨r, n, g⟩ := t
    obtain ⟨hr, hn, _, _, _⟩ := validate_inputs_some pf rr nr gr r n g hv
    have hrnorm : normalize_roll r = r := by rw [hr, normalize_roll_idem]
    by_cases hcond : r ≠ normalize_roll sr ∧ dictContains st.hash_map r = true
    · rw [update_student_dup pf st sr rr nr gr r n g hv hcond.1 hcond.2]
      exact hinv
    · cases hg : dictGet st.hash_map (normalize_roll sr) with
      | none =>
        rw [update_student_notFound pf st sr rr nr gr r n g hv hcond hg]
        exact hinv
      | some idx =>
        rw [update_student_ok_eq pf st sr rr nr gr r n g hv hcond idx hg]
        obtain ⟨hidx, hroll⟩ := (storeInv_dictGet_some hinv _ idx).mp hg
        refine ⟨?_, ?_, rfl, ?_⟩
        · intro s hs
          rcases List.mem_or_eq_of_mem_set hs with hmem | hmem
          · exact hinv.1 s hmem
          · rw [hmem]
            exact hrnorm
        · rw [List.map_set]
          rcases not_and_or.mp hcond with hne | hc
        
          · push_neg at hne
            have hlen : idx < (st.linked_list.map Student.roll).length := by simpa using hidx
            have hgr : (st.linked_list.map Student.roll).get ⟨idx, hlen⟩ = r := by
              rw [List.get_map]
              rw [hroll, ← hne]
            have hself := list_set_self (st.linked_list.map Student.roll) idx hlen
            rw [List.get_eq_getElem] at hgr
            rw [hgr] at hself
            rw [hself]
            exact hinv.2.1
          · have hnm : r ∉ st.linked_list.map Student.roll := by
              intro hmem
              rw [← storeInv_dictContains hinv] at hmem
              exact hc hmem
            exact nodup_set_of_not_mem hinv.2.1 idx (by simpa using hidx) r hnm
        · intro s hs
          rcases List.mem_or_eq_of_mem_set hs with hmem | hmem
          · exact hinv.2.2.2 s hmem
          · rw [hmem]
            exact validate_roll_ne_nil pf rr nr gr r n g hv

theorem storeInv_delete (st : StoreState) (rr : PyStr) (hinv : StoreInv st) :
    StoreInv (delete_student st rr).1 := by
  cases hs : (pyStrip rr).isEmpty with
  | true => simp [delete_student, hs]; exact hinv
  | false =>
    cases hg : dictGet st.hash_map (normalize_roll (pyStrip rr)) with
    | none => simp [delete_student, hs, hg]; exact hinv
    | some idx =>
      obtain ⟨hidx, hroll⟩ := (storeInv_dictGet_some hinv _ idx).mp hg
      have hget : st.linked_list.get? idx = some (st.linked_list.get ⟨idx, hidx⟩) :=
        List.get?_eq_get hidx
      have hrem := remove_by_roll_spec st.linked_list
        (((st.linked_list.get? idx).getD ⟨[], [], 0⟩).roll)
      have hnode : ((st.linked_list.get? idx).getD ⟨[], [], 0⟩).roll
          = (st.linked_list.get ⟨idx, hidx⟩).roll := by
        rw [hget]
        rfl
      have hany : st.linked_list.any
          (fun s => s.roll == ((st.linked_list.get? idx).getD ⟨[], [], 0⟩).roll) = true := by
        rw [List.any_eq_true]
        exact ⟨st.linked_list.get ⟨idx, hidx⟩, List.get_mem _ idx hidx, by rw [hnode]; simp⟩
      have h2 : (remove_by_roll st.linked_list
          (((st.linked_list.get? idx).getD ⟨[], [], 0⟩).roll)).2 = true := by
        rw [hrem.2]
        exact hany
      have hsub : (remove_by_roll st.linked_list
          (((st.linked_list.get? idx).getD ⟨[], [], 0⟩).roll)).1.Sublist st.linked_list := by
        rw [hrem.1]
        exact List.eraseP_sublist _
      simp only [delete_student, hs, hg, h2, if_true, persist_and_refresh]
      refine ⟨?_, ?_, rfl, ?_⟩
      · intro s hmem
        exact hinv.1 s (hsub.mem hmem)
      · exact hinv.2.1.sublist (hsub.map Student.roll)
      · intro s hmem
        exact hinv.2.2.2 s (hsub.mem hmem)

theorem storeInv_sort (st st' : StoreState) (k : SortKey) (hinv : StoreInv st)
    (h : sort_and_refresh st k = some st') : StoreInv st' := by
  have main : ∀ out : List Student, out.Perm st.linked_list →
      StoreInv ⟨out, rebuild_hash_map out⟩ := by
    intro out hperm
    refine ⟨?_, ?_, rfl, ?_⟩
    · intro s hmem
      exact hinv.1 s (hperm.mem_iff.mp hmem)
    · exact ((hperm.map Student.roll).nodup_iff).mpr hinv.2.1
    · intro s hmem
      exact hinv.2.2.2 s (hperm.mem_iff.mp hmem)
  cases k with
  | roll =>
    obtain ⟨out, heq, hperm, _, _⟩ :=
      quicksort_students_spec (fun s : Student => normalize_roll s.roll) st.linked_list
    rw [sort_and_refresh] at h
    simp only [heq] at h
    simp at h
    rw [← h]
    exact main out hperm
  | name =>
    obtain ⟨out, heq, hperm, _, _⟩ :=
      quicksort_students_spec (fun s : Student => pyLower s.name) st.linked_list
    rw [sort_and_refresh] at h
    simp only [heq] at h
    simp at h
    rw [← h]
    exact main out hperm
  | gpa =>
    obtain ⟨out, heq, hperm, _, _⟩ :=
      quicksort_students_spec (fun s : Student => s.gpa) st.linked_list
    rw [sort_and_refresh] at h
    simp only [heq] at h
    simp at h
    rw [← h]
    exact main out.reverse ((List.reverse_perm out).trans hperm)

/-- States of the store reachable through the GUI operations from the
initial load of a missing file (the store's own save format round-trips,
`save_load_round_trip`, so stores re-opened on their own files resume in a
reachable state). -/
inductive Reachable : StoreState → Prop where
  | empty : Reachable (load_data none)
  | add (pf : PyStr → Option ℚ) (st : StoreState) (rr nr gr : PyStr) :
      Reachable st → Reachable (add_student pf st rr nr gr).1
  | update (pf : PyStr → Option ℚ) (st : StoreState) (sr rr nr gr : PyStr) :
      Reachable st → Reachable (update_student pf st sr rr nr gr).1
  | delete (st : StoreState) (rr : PyStr) :
      Reachable st → Reachable (delete_student st rr).1
  | sort (st st' : StoreState) (k : SortKey) :
      Reachable st → sort_and_refresh st k = some st' → Reachable st'

theorem reachable_storeInv {st : StoreState} (h : Reachable st) : StoreInv st := by
  induction h with
  | empty => exact storeInv_empty
  | add pf st rr nr gr _ ih => exact storeInv_add pf st rr nr gr ih
  | update pf st sr rr nr gr _ ih => exact storeInv_update pf st sr rr nr gr ih
  | delete st rr _ ih => exact storeInv_delete st rr ih
  | sort st st' k _ hs ih => exact storeInv_sort st st' k ih hs

/-!
## The uniqueness and consistency claims
-/

/-- C1: on every reachable store state (so along every sequence of `add`
calls) no two records share a normalized roll, and an `add` whose
normalized roll collides with an existing record's normalized roll returns
`duplicateRoll` leaving both the container and the index unchanged. -/
theorem add_preserves_unique_rolls (st : StoreState) (hreach : Reachable st) :
    (st.linked_list.map (fun s => normalize_roll s.roll)).Nodup ∧
    (∀ (pf : PyStr → Option ℚ) (rr nr gr r n : PyStr) (g : ℚ),
      validate_inputs pf true rr nr gr = some (r, n, g) →
      r ∈ st.linked_list.map (fun s => normalize_roll s.roll) →
      add_student pf st rr nr gr = (st, .duplicateRoll)) := by
  have hinv := reachable_storeInv hreach
  have hmapeq : st.linked_list.map (fun s => normalize_roll s.roll)
      = st.linked_list.map Student.roll :=
    List.map_congr_left hinv.1
  constructor
  · rw [hmapeq]
    exact hinv.2.1
  · intro pf rr nr gr r n g hv hmem
    rw [hmapeq] at hmem
    exact add_student_dup pf st rr nr gr r n g hv ((storeInv_dictContains hinv r).mpr hmem)

/-- Key-index/container consistency, phrased as the spec states it: the
index's key list is exactly the container's normalized-roll list, each
normalized roll appears exactly once, and every key resolves to the node
holding the record carrying that normalized roll. -/
def IndexConsistent (st : StoreState) : Prop :=
  st.hash_map.map Prod.fst = st.linked_list.map (fun s => normalize_roll s.roll) ∧
  (st.hash_map.map Prod.fst).Nodup ∧
  (∀ (k : PyStr) (i : Nat), dictGet st.hash_map k = some i →
    ∃ h : i < st.linked_list.length, normalize_roll ((st.linked_list.get ⟨i, h⟩).roll) = k)

/-- C2: after any sequence of add/update/delete/sort operations from a
freshly loaded store, the hash index and the linked list agree — the key
set is exactly the set of normalized rolls, with no duplicates and no
omissions, and each key maps to the node with that normalized roll. -/
theorem index_container_consistent (st : StoreState) (hreach : Reachable st) :
    IndexConsistent st := by
  have hinv := reachable_storeInv hreach
  have hmapeq : st.linked_list.map (fun s => normalize_roll s.roll)
      = st.linked_list.map Student.roll :=
    List.map_congr_left hinv.1
  refine ⟨?_, ?_, ?_⟩
  · rw [storeInv_keys hinv, hmapeq]
  · rw [storeInv_keys hinv]
    exact hinv.2.1
  · intro k i hg
    obtain ⟨h, hroll⟩ := (storeInv_dictGet_some hinv k i).mp hg
    exact ⟨h, by rw [hinv.1 _ (List.get_mem _ i h), hroll]⟩

theorem not_mem_set {L : List PyStr} (h : L.Nodup) (i : Nat) (hi : i < L.length)
    (R b : PyStr) (hgi : L.get ⟨i, hi⟩ = R) (hne : b ≠ R) : R ∉ L.set i b := by
  intro hmem
  rw [List.mem_iff_getElem] at hmem
  obtain ⟨m, hm, heq⟩ := hmem
  rw [List.getElem_set] at heq
  by_cases hc : i = m
  · rw [if_pos hc] at heq
    exact hne heq
  · rw [if_neg hc] at heq
    have hmlen : m < L.length := by simpa using hm
    have hgeq : L.get ⟨m, hmlen⟩ = L.get ⟨i, hi⟩ := by
      rw [hgi, List.get_eq_getElem]
      exact heq
    have hfin := List.nodup_iff_injective_get.mp h hgeq
    exact hc (congrArg Fin.val hfin).symm

theorem pyStrip_of_normalized (k : PyStr) (hk : normalize_roll k = k) : pyStrip k = k := by
  conv_lhs => rw [← hk]
  rw [normalize_roll, pyStrip_pyUpper_pyStrip, ← normalize_roll, hk]

theorem search_student_normalized (st : StoreState) (k : PyStr)
    (hk : normalize_roll k = k) (hne : k ≠ []) :
    search_student st k = (dictGet st.hash_map k).bind (st.linked_list.get? ·) := by
  have hstrip : pyStrip k = k := pyStrip_of_normalized k hk
  have hempty : (pyStrip k).isEmpty = false := by
    rw [hstrip]
    cases k with
    | nil => exact absurd rfl hne
    | cons a t => rfl
  simp [search_student, hempty, hstrip, hk]
  intro h
  exact absurd h hne

/-- C7: updating a record found under normalized roll `R` rejects with
`duplicateRoll` — leaving the store unchanged — when the normalized new
roll differs from `R` and belongs to another record; otherwise it succeeds
by overwriting that record's fields in place and re-keying the index, so
that a search for `R` afterwards is absent (when the roll changed) and a
search for the new normalized roll returns the updated record. -/
theorem update_student_contract (st : StoreState) (hreach : Reachable st)
    (pf : PyStr → Option ℚ) (R rr nr gr r n : PyStr) (g : ℚ)
    (hmem : R ∈ st.linked_list.map (fun s => normalize_roll s.roll))
    (hv : validate_inputs pf true rr nr gr = some (r, n, g)) :
    (r ≠ R → r ∈ st.linked_list.map (fun s => normalize_roll s.roll) →
      update_student pf st R rr nr gr = (st, .duplicateRoll)) ∧
    ((r = R ∨ r ∉ st.linked_list.map (fun s => normalize_roll s.roll)) →
      ∃ (idx : Nat) (hidx : idx < st.linked_list.length),
        normalize_roll ((st.linked_list.get ⟨idx, hidx⟩).roll) = R ∧
        ∃ st', update_student pf st R rr nr gr = (st', .ok) ∧
          st'.linked_list = st.linked_list.set idx ⟨r, n, g⟩ ∧
          (r ≠ R → search_student st' R = none) ∧
          search_student st' r = some ⟨r, n, g⟩) := by
  have hinv := reachable_storeInv hreach
  have hmapeq : st.linked_list.map (fun s => normalize_roll s.roll)
      = st.linked_list.map Student.roll :=
    List.map_congr_left hinv.1
  have hmem' : R ∈ st.linked_list.map Student.roll := by rwa [hmapeq] at hmem
  have hRnorm : normalize_roll R = R := by
    obtain ⟨s, hs, hsr⟩ := List.mem_map.mp hmem'
    rw [← hsr, ← hinv.1 s hs, normalize_roll_idem, hinv.1 s hs]
  constructor
  · intro hne hmem2
    rw [hmapeq] at hmem2
    exact update_student_dup pf st R rr nr gr r n g hv (by rwa [hRnorm])
      ((storeInv_dictContains hinv r).mpr hmem2)
  · intro hok
    obtain ⟨s, hs, hsr⟩ := List.mem_map.mp hmem'
    obtain ⟨fi, hfi⟩ := List.mem_iff_get.mp hs
    have hgidx : dictGet st.hash_map R = some fi.1 :=
      (storeInv_dictGet_some hinv R fi.1).mpr
        ⟨fi.2, by rw [show (⟨fi.1, fi.2⟩ : Fin _) = fi from rfl, hfi, hsr]⟩
    have hcond : ¬(r ≠ normalize_roll R ∧ dictContains st.hash_map r = true) := by
      rw [hRnorm]
      rcases hok with hreq | hnot
      · intro hc
        exact hc.1 hreq
      · intro hc
        rw [hmapeq] at hnot
        exact hnot ((storeInv_dictContains hinv r).mp hc.2)
    have heq := update_student_ok_eq pf st R rr nr gr r n g hv hcond fi.1
      (by rwa [hRnorm])
    have hrollidx : (st.linked_list.get ⟨fi.1, fi.2⟩).roll = R := by
      rw [show (⟨fi.1, fi.2⟩ : Fin _) = fi from rfl, hfi, hsr]
    refine ⟨fi.1, fi.2, by rw [hrollidx, hRnorm], ?_⟩
    set st' : StoreState := ⟨st.linked_list.set fi.1 ⟨r, n, g⟩,
      rebuild_hash_map (st.linked_list.set fi.1 ⟨r, n, g⟩)⟩ with hst'
    have hinv' : StoreInv st' := by
      have := storeInv_update pf st R rr nr gr hinv
      rw [heq] at this
      exact this
    have hlen' : fi.1 < st'.linked_list.length := by
      show fi.1 < (st.linked_list.set fi.1 ⟨r, n, g⟩).length
      simpa using fi.2
    have hroll' : (st'.linked_list.get ⟨fi.1, hlen'⟩).roll = r := by
      show ((st.linked_list.set fi.1 ⟨r, n, g⟩).get ⟨fi.1, hlen'⟩).roll = r
      simp [List.get_eq_getElem, List.getElem_set]
    have hget2 : st'.linked_list.get? fi.1 = some ⟨r, n, g⟩ := by
      rw [List.get?_eq_get hlen']
      show some ((st.linked_list.set fi.1 ⟨r, n, g⟩).get ⟨fi.1, hlen'⟩) = some ⟨r, n, g⟩
      simp [List.get_eq_getElem, List.getElem_set]
    have hrnorm : normalize_roll r = r := by
      obtain ⟨hr, _, _, _, _⟩ := validate_inputs_some pf rr nr gr r n g hv
      rw [hr, normalize_roll_idem]
    have hrne : r ≠ [] := validate_roll_ne_nil pf rr nr gr r n g hv
    refine ⟨st', heq, rfl, ?_, ?_⟩
    · intro hne
      have hRne : R ≠ [] := by
        rw [← hsr]
        exact hinv.2.2.2 s hs
      rw [search_student_normalized st' R hRnorm hRne]
      have hnone : dictGet st'.hash_map R = none := by
        refine (storeInv_dictGet_none hinv' R).mpr ?_
        have hmap : st'.linked_list.map Student.roll
            = (st.linked_list.map Student.roll).set fi.1 r := by
          rw [hst']
          simp [List.map_set]
        rw [hmap]
        have hLlen : fi.1 < (st.linked_list.map Student.roll).length := by
          simpa using fi.2
        refine not_mem_set hinv.2.1 fi.1 hLlen R r ?_ hne
        rw [List.get_eq_getElem, List.getElem_map]
        exact hrollidx
      rw [hnone]
      rfl
    · rw [search_student_normalized st' r hrnorm hrne]
      have hsome : dictGet st'.hash_map r = some fi.1 :=
        (storeInv_dictGet_some hinv' r fi.1).mpr ⟨hlen', hroll'⟩
      rw [hsome]
      show st'.linked_list.get? fi.1 = some ⟨r, n, g⟩
      exact hget2

theorem PyFloat.lt_num (a b : ℚ) : PyFloat.lt (.num a) (.num b) = decide (a < b) :=
  rfl

theorem validate_inputs_float_num (pfq : PyStr → Option ℚ) (rb : Bool)
    (rr nr gr : PyStr) :
    validate_inputs_float (fun s => (pfq s).map PyFloat.num) rb rr nr gr
      = (validate_inputs pfq rb rr nr gr).map
          (fun t => (t.1, t.2.1, PyFloat.num t.2.2)) := by
  simp only [validate_inputs_float, validate_inputs]
  split
  · rfl
  · split
    · rfl
    · split
      · rfl
      · cases pfq (pyStrip gr) with
        | none => rfl
        | some q =>
          simp only [Option.map_some', PyFloat.lt_num, gt_iff_lt]
          split
          · rfl
          · rfl

/-- C9: the gpa text `"nan"` breaks the claimed validation boundary. The
builtin parser accepts it (`float("nan")` is `nan`), both guard comparisons
`nan < 0` and `nan > 4.0` are false under IEEE semantics, so the validation
of src lines 294–321 returns the record with gpa `nan` — a value that is not
a number in [0, 4] — instead of rejecting it with `invalidInput`. -/
theorem nan_gpa_accepted :
    validate_inputs_float nan_pyfloat true "r1".data "Al".data "nan".data
      = some ("R1".data, "Al".data, .nan) ∧
    PyFloat.lt .nan (.num 0) = false ∧ PyFloat.lt (.num 4) .nan = false ∧
    ∀ q : ℚ, PyFloat.nan ≠ PyFloat.num q := by
  refine ⟨by decide, rfl, rfl, ?_⟩
  intro q h
  exact PyFloat.noConfusion h

theorem pairwise_lt_of_le_nodup {σ α : Type} [LinearOrder α] (key : σ → α)
    (l : List σ) (hle : l.Pairwise (fun a b => key a ≤ key b))
    (hnd : (l.map key).Nodup) : l.Pairwise (fun a b => key a < key b) := by
  induction l with
  | nil => exact List.Pairwise.nil
  | cons a t ih =>
    rw [List.map_cons, List.nodup_cons] at hnd
    rw [List.pairwise_cons] at hle ⊢
    refine ⟨?_, ih hle.2 hnd.2⟩
    intro b hb
    have hne : key a ≠ key b := by
      intro he
      exact hnd.1 (he ▸ List.mem_map_of_mem key hb)
    exact lt_of_le_of_ne (hle.1 b hb) hne

theorem quicksort_output_unique {σ α : Type} [LinearOrder α] (key : σ → α)
    (l l2 out2 : List σ) (hperm : l2.Perm l) (hnd : (l.map key).Nodup)
    (hsorted : l.Pairwise (fun x y => key x ≤ key y))
    (h2 : quicksort_students key l2 = some out2) : out2 = l := by
  obtain ⟨out, hq, hp, _, hpw⟩ := quicksort_students_spec key l2
  rw [h2] at hq
  have heq := Option.some.inj hq
  subst heq
  have hperm2 : out2.Perm l := hp.trans hperm
  have hnd2 : (out2.map key).Nodup := ((hperm2.map key).nodup_iff).mpr hnd
  have hlt2 := pairwise_lt_of_le_nodup key out2 hpw hnd2
  have hlt1 := pairwise_lt_of_le_nodup key l hsorted hnd
  haveI : IsAntisymm σ (fun x y => key x < key y) :=
    ⟨fun a b h1 h2 => absurd h2 (not_lt.mpr (le_of_lt h1))⟩
  exact List.eq_of_perm_of_sorted hperm2 hlt2 hlt1

theorem quicksort_idem {σ α : Type} [LinearOrder α] (key : σ → α)
    (L l0 : List σ) (h1 : quicksort_students key L = some l0)
    (hnd : (L.map key).Nodup) : quicksort_students key l0 = some l0 := by
  obtain ⟨out, hq, hp, _, hpw⟩ := quicksort_students_spec key L
  rw [h1] at hq
  have heq := Option.some.inj hq
  subst heq
  have hnd0 : (l0.map key).Nodup := ((hp.map key).nodup_iff).mpr hnd
  obtain ⟨out2, hq2, hp2, _, _⟩ := quicksort_students_spec key l0
  rw [hq2, quicksort_output_unique key l0 l0 out2 (List.Perm.refl l0) hnd0 hpw hq2]

theorem quicksort_rev_idem {σ α : Type} [LinearOrder α] (key : σ → α)
    (L l0 : List σ) (h1 : quicksort_students key L = some l0)
    (hnd : (L.map key).Nodup) : quicksort_students key l0.reverse = some l0 := by
  obtain ⟨out, hq, hp, _, hpw⟩ := quicksort_students_spec key L
  rw [h1] at hq
  have heq := Option.some.inj hq
  subst heq
  have hnd0 : (l0.map key).Nodup := ((hp.map key).nodup_iff).mpr hnd
  obtain ⟨out2, hq2, _, _, _⟩ := quicksort_students_spec key l0.reverse
  rw [hq2, quicksort_output_unique key l0 l0.reverse out2
    (List.reverse_perm l0) hnd0 hpw hq2]

/-- A reachable-shaped store holding two records that share the name `ZED`. -/
def c5_store : StoreState :=
  ⟨[⟨"A1".data, "ZED".data, mkRat 3 1⟩, ⟨"B2".data, "ZED".data, mkRat 2 1⟩],
   rebuild_hash_map
     [⟨"A1".data, "ZED".data, mkRat 3 1⟩, ⟨"B2".data, "ZED".data, mkRat 2 1⟩]⟩

/-- C5: sorting by name is not idempotent — on a store whose two records
share a name, the Hoare partition swaps the equal-keyed pair on every pass,
so sorting twice restores the original order instead of the once-sorted one. -/
theorem sort_by_name_not_idempotent :
    (sort_and_refresh c5_store .name).bind (fun st => sort_and_refresh st .name)
      ≠ sort_and_refresh c5_store .name := by decide

/-- C5 (amended): the store's sort is idempotent whenever the chosen key's
values are pairwise distinct across the records. -/
theorem sort_idempotent_of_distinct_keys (st : StoreState) (k : SortKey)
    (hnd : match k with
      | .roll => (st.linked_list.map (fun s : Student => normalize_roll s.roll)).Nodup
      | .name => (st.linked_list.map (fun s : Student => pyLower s.name)).Nodup
      | .gpa => (st.linked_list.map (fun s : Student => s.gpa)).Nodup) :
    (sort_and_refresh st k).bind (fun st' => sort_and_refresh st' k) =
      sort_and_refresh st k := by
  cases k with
  | roll =>
    obtain ⟨l0, hq, _, _, _⟩ :=
      quicksort_students_spec (fun s : Student => normalize_roll s.roll) st.linked_list
    have hq2 := quicksort_idem _ _ _ hq hnd
    simp [sort_and_refresh, hq, hq2]
  | name =>
    obtain ⟨l0, hq, _, _, _⟩ :=
      quicksort_students_spec (fun s : Student => pyLower s.name) st.linked_list
    have hq2 := quicksort_idem _ _ _ hq hnd
    simp [sort_and_refresh, hq, hq2]
  | gpa =>
    obtain ⟨l0, hq, _, _, _⟩ :=
      quicksort_students_spec (fun s : Student => s.gpa) st.linked_list
    have hq2 := quicksort_rev_idem _ _ _ hq hnd
    simp [sort_and_refresh, hq, hq2]

/-- A tiny concrete `float()` parser for the concrete instantiations. -/
def wit_pyfloat : PyStr → Option ℚ := fun s =>
  if s = "3".data then some (mkRat 3 1)
  else if s = "2".data then some (mkRat 2 1)
  else none

/-- The store obtained by one successful `add("a1","Al","3")` on a fresh load. -/
def wit_store : StoreState :=
  (add_student wit_pyfloat (load_data none) "a1".data "Al".data "3".data).1

/-- C1 instantiated at the one-record store reached by a single add. -/
theorem add_preserves_unique_rolls_witness :
    (wit_store.linked_list.map (fun s => normalize_roll s.roll)).Nodup ∧
    (∀ (pf : PyStr → Option ℚ) (rr nr gr r n : PyStr) (g : ℚ),
      validate_inputs pf true rr nr gr = some (r, n, g) →
      r ∈ wit_store.linked_list.map (fun s => normalize_roll s.roll) →
      add_student pf wit_store rr nr gr = (wit_store, .duplicateRoll)) :=
  add_preserves_unique_rolls wit_store
    (Reachable.add wit_pyfloat (load_data none) "a1".data "Al".data "3".data
      Reachable.empty)

/-- C2 instantiated at the one-record store reached by a single add. -/
theorem index_container_consistent_witness : IndexConsistent wit_store :=
  index_container_consistent wit_store
    (Reachable.add wit_pyfloat (load_data none) "a1".data "Al".data "3".data
      Reachable.empty)

/-- C7 instantiated: updating the `A1` record to roll `z9`, name `Zed`,
gpa `2` on the one-record store. -/
theorem update_student_contract_witness :
    (("Z9".data ≠ "A1".data →
      "Z9".data ∈ wit_store.linked_list.map (fun s => normalize_roll s.roll) →
      update_student wit_pyfloat wit_store "A1".data "z9".data "Zed".data "2".data
        = (wit_store, .duplicateRoll)) ∧
    (("Z9".data = "A1".data ∨
      "Z9".data ∉ wit_store.linked_list.map (fun s => normalize_roll s.roll)) →
      ∃ (idx : Nat) (hidx : idx < wit_store.linked_list.length),
        normalize_roll ((wit_store.linked_list.get ⟨idx, hidx⟩).roll) = "A1".data ∧
        ∃ st', update_student wit_pyfloat wit_store "A1".data "z9".data "Zed".data
            "2".data = (st', .ok) ∧
          st'.linked_list =
            wit_store.linked_list.set idx ⟨"Z9".data, "Zed".data, mkRat 2 1⟩ ∧
          ("Z9".data ≠ "A1".data → search_student st' "A1".data = none) ∧
          search_student st' "Z9".data = some ⟨"Z9".data, "Zed".data, mkRat 2 1⟩)) :=
  update_student_contract wit_store
    (Reachable.add wit_pyfloat (load_data none) "a1".data "Al".data "3".data
      Reachable.empty)
    wit_pyfloat "A1".data "z9".data "Zed".data "2".data "Z9".data "Zed".data
    (mkRat 2 1) (by decide) (by decide)

/-- C5 (amended) instantiated: the two-record store's rolls are distinct, so
sorting by roll twice equals sorting once. -/
theorem sort_idempotent_of_distinct_keys_witness :
    (sort_and_refresh c5_store .roll).bind (fun st' => sort_and_refresh st' .roll) =
      sort_and_refresh c5_store .roll :=
  sort_idempotent_of_distinct_keys c5_store .roll (by decide)
